import Mathlib

/-!
Verification of the spectral scrambling engine of the Scrambler repository
(src/engine/src/scramble/fourier.rs), shallowly embedded in Lean.

Modelling conventions:

* `f64` values are modelled as real numbers `ℝ`, `Complex64` as `ℂ`.
* `usize` is modelled as `ℕ`; a machine-level panic (index underflow /
  out-of-bounds access, call of the transform primitive outside its plan
  size, `%` by zero) is modelled by an `Option` result of `none`.
  `crate::Result` never carries an error in this file of the source
  (every `Ok`-path is total), so `Option` covers the whole behaviour:
  `some` = normal return, `none` = abort.
* two dimensional buffers (`ndarray::Array2`, the flat row-major
  `Vec<Complex64>` with index `idx = y * n + x`) are modelled as total
  functions `ℕ → ℕ → _`; only indices inside the stated dimensions are
  meaningful and theorems quantify over those.
* the sequential seeded PRNG (`StdRng`) is modelled as an abstract stream
  `stream : ℕ → ℝ` of successive draws together with a cursor that is
  threaded through the computation; `rng.gen_range(0.0..2π)` consumes
  `stream cursor` and advances the cursor.
* the external 1D transform primitive (rustfft, an external collaborator
  per §6 of the specification) is modelled as the unnormalized discrete
  Fourier transform, which satisfies the stated contract
  `inverse1d(forward1d(x)) = n * x`; its `process` call divides the
  buffer into consecutive chunks of the plan's length and transforms
  each chunk, panicking (modelled `none`) when the plan's length does
  not divide the buffer length — so a plan built for a smaller
  power-of-two size than the buffer returns normally with chunked
  (invalid) results rather than aborting.
-/

/-- Rust `is_power_of_two`: `n != 0 && (n & (n - 1)) == 0`. -/
def is_power_of_two (n : ℕ) : Bool :=
  n != 0 && (n &&& (n - 1)) == 0

/-- Fuelled form of the `while !is_power_of_two(optimal_size) { optimal_size += 1 }`
loop of `get_optimal_fft_size`.  The fuel only bounds the number of
iterations; `fftSizeGo_eq` below shows any sufficiently large fuel yields
the same value, which is the loop's result. -/
def fftSizeGo : ℕ → ℕ → ℕ
  | 0, s => s
  | fuel + 1, s => if is_power_of_two s then s else fftSizeGo fuel (s + 1)

/-- Rust `get_optimal_fft_size`: returns the next power of two greater than
or equal to `size`.  The fuel `2 ^ size` is sufficient because `2 ^ size`
is itself a power of two that is `≥ size`. -/
def get_optimal_fft_size (size : ℕ) : ℕ :=
  fftSizeGo (2 ^ size) size

/-- Fuelled form of the first loop of `angle_difference`:
`while diff > PI { diff -= 2.0 * PI }`. -/
noncomputable def wrapDown : ℕ → ℝ → ℝ
  | 0, d => d
  | fuel + 1, d => if Real.pi < d then wrapDown fuel (d - 2 * Real.pi) else d

/-- Fuelled form of the second loop of `angle_difference`:
`while diff < -PI { diff += 2.0 * PI }`. -/
noncomputable def wrapUp : ℕ → ℝ → ℝ
  | 0, d => d
  | fuel + 1, d => if d < -Real.pi then wrapUp fuel (d + 2 * Real.pi) else d

/-- Rust `angle_difference(a, b)`: minimal angular difference, wrapping at
±π.  The fuel `⌈|a - b|⌉₊ + 1` strictly exceeds the number of iterations
either `while` loop performs (each iteration moves the value by `2π > 1`
toward `[-π, π]`), so the fuelled loops compute exactly what the source's
unbounded loops compute; `angle_difference_bounds` below proves the
resulting range. -/
noncomputable def angle_difference (a b : ℝ) : ℝ :=
  wrapUp (⌈|a - b|⌉₊ + 1) (wrapDown (⌈|a - b|⌉₊ + 1) (a - b))

/-- Symmetric coordinate of the phase scrambler:
`let sym_y = if y == 0 { 0 } else { n - y }`. -/
def symCoord (n y : ℕ) : ℕ :=
  if y = 0 then 0 else n - y

/-- Skip test of the phase scrambler's pair enumeration:
`if y > sym_y || (y == sym_y && x > sym_x) { continue; }`. -/
def skipb (n : ℕ) (p : ℕ × ℕ) : Bool :=
  decide (symCoord n p.1 < p.1) ||
    (decide (p.1 = symCoord n p.1) && decide (symCoord n p.2 < p.2))

/-- New value of one visited coefficient, from `phase_scramble`'s body:
magnitude is kept, the phase moves from `orig_phase` toward the drawn
`random_phase` by the blend factor `t` (the intensity), and the value is
rebuilt with `Complex64::from_polar` (= `mag * exp(i * new_phase)`). -/
noncomputable def scrambleCoeff (t r : ℝ) (z : ℂ) : ℂ :=
  ((Complex.abs z : ℝ) : ℂ) *
    Complex.exp (((z.arg + t * angle_difference r z.arg : ℝ) : ℂ) * Complex.I)

/-- Pointwise update of a two dimensional buffer (a single
`data[idx] = v` store at coordinates `(y, x)`). -/
def upd2 (d : ℕ → ℕ → ℂ) (y x : ℕ) (v : ℂ) : ℕ → ℕ → ℂ :=
  fun y' x' => if y' = y ∧ x' = x then v else d y' x'

/-- One iteration of `phase_scramble`'s nested loop at coordinates `p`:
skipped pairs leave the state unchanged; a visited coordinate draws the
next random phase, rewrites itself, and (when not self-symmetric) writes
the conjugate into its Hermitian partner. -/
noncomputable def scrambleStep (n : ℕ) (t : ℝ) (stream : ℕ → ℝ)
    (s : (ℕ → ℕ → ℂ) × ℕ) (p : ℕ × ℕ) : (ℕ → ℕ → ℂ) × ℕ :=
  if skipb n p then s
  else
    let newVal := scrambleCoeff t (stream s.2) (s.1 p.1 p.2)
    let d1 := upd2 s.1 p.1 p.2 newVal
    let d2 :=
      if p.1 = symCoord n p.1 ∧ p.2 = symCoord n p.2 then d1
      else upd2 d1 (symCoord n p.1) (symCoord n p.2) (starRingEnd ℂ newVal)
    (d2, s.2 + 1)

/-- Row-major enumeration of the `n × n` grid, matching the nested
`for y in 0..n { for x in 0..n { ... } }` loops. -/
def coordList (n : ℕ) : List (ℕ × ℕ) :=
  (List.range n).flatMap fun y => (List.range n).map fun x => (y, x)

/-- Rust `phase_scramble`: in-place mutation of the `n × n` spectrum is
modelled by folding `scrambleStep` over the row-major coordinate list,
threading the buffer and the PRNG cursor. -/
noncomputable def phase_scramble (n : ℕ) (t : ℝ) (stream : ℕ → ℝ)
    (cur : ℕ) (d : ℕ → ℕ → ℂ) : (ℕ → ℕ → ℂ) × ℕ :=
  List.foldl (scrambleStep n t stream) (d, cur) (coordList n)

/-- Cursor position at which the visit of coordinate `(y, x)` draws its
random phase: the starting cursor plus the number of visited (non-skipped)
coordinates strictly before `(y, x)` in row-major order. -/
def cIdx (n cur y x : ℕ) : ℕ :=
  cur + ((coordList n).takeWhile (fun q => decide (q ≠ (y, x)))).countP
    (fun q => !skipb n q)

/-- Cursor position of the visit of `p` relative to a processed prefix
`l` of the coordinate enumeration (`cIdx` is this at the full list). -/
def pcur (n cur : ℕ) (l : List (ℕ × ℕ)) (p : ℕ × ℕ) : ℕ :=
  cur + (l.takeWhile fun q => decide (q ≠ p)).countP fun q => !skipb n q

/-- Invariant of the `phase_scramble` fold after processing the prefix
`l₁` of the coordinate enumeration: the cursor has advanced by the number
of visited coordinates, a visited coordinate already in the prefix holds
its scrambled value, a skipped coordinate whose partner is in the prefix
holds the conjugate of the partner's scrambled value, and every other
cell still holds its original value. -/
def PSInv (n : ℕ) (t : ℝ) (stream : ℕ → ℝ) (cur : ℕ) (d : ℕ → ℕ → ℂ)
    (l₁ : List (ℕ × ℕ)) (s : (ℕ → ℕ → ℂ) × ℕ) : Prop :=
  s.2 = cur + l₁.countP (fun q => !skipb n q) ∧
  ∀ y, y < n → ∀ x, x < n →
    s.1 y x =
      if skipb n (y, x) = true then
        if (symCoord n y, symCoord n x) ∈ l₁ then
          starRingEnd ℂ (scrambleCoeff t
            (stream (pcur n cur l₁ (symCoord n y, symCoord n x)))
            (d (symCoord n y) (symCoord n x)))
        else d y x
      else
        if (y, x) ∈ l₁ then
          scrambleCoeff t (stream (pcur n cur l₁ (y, x))) (d y x)
        else d y x

/-- Hermitian symmetry of an `n × n` spectrum, as stated in the
specification: every coefficient is the conjugate of its symmetric
partner. -/
def Hermitian (n : ℕ) (d : ℕ → ℕ → ℂ) : Prop :=
  ∀ y < n, ∀ x < n, d y x = starRingEnd ℂ (d (symCoord n y) (symCoord n x))

/-- Modelled from the spec (§6): the external forward 1D transform
primitive, the unnormalized discrete Fourier transform
`X_k = Σ_j x_j · exp(-2πi·j·k/n)`. -/
noncomputable def dft1 (n : ℕ) (v : ℕ → ℂ) : ℕ → ℂ :=
  fun k => ∑ j ∈ Finset.range n,
    v j * Complex.exp (-(2 * (Real.pi : ℂ) * j * k / n) * Complex.I)

/-- Modelled from the spec (§6): the external inverse 1D transform
primitive, the unnormalized inverse discrete Fourier transform
`x_j = Σ_k X_k · exp(2πi·j·k/n)`; together with `dft1` it satisfies the
contract `inverse1d(forward1d(x)) = n * x` proved below. -/
noncomputable def idft1 (n : ℕ) (v : ℕ → ℂ) : ℕ → ℂ :=
  fun k => ∑ j ∈ Finset.range n,
    v j * Complex.exp ((2 * (Real.pi : ℂ) * j * k / n) * Complex.I)

/-- Application of a 1D transform to each row of a square buffer (the
first half of `fft2d`/`ifft2d`). -/
noncomputable def transform_rows (T : (ℕ → ℂ) → ℕ → ℂ) (d : ℕ → ℕ → ℂ) :
    ℕ → ℕ → ℂ :=
  fun y x => T (d y) x

/-- Application of a 1D transform to each column of a square buffer (the
second half of `fft2d`/`ifft2d`, with the gather/scatter through the
temporary `column` buffer modelled directly). -/
noncomputable def transform_cols (T : (ℕ → ℂ) → ℕ → ℂ) (d : ℕ → ℕ → ℂ) :
    ℕ → ℕ → ℂ :=
  fun y x => T (fun y' => d y' x) y

/-- Semantics of one `self.fft.process(&mut buffer)` call on a buffer:
the plan was built for length `planSize`, and rustfft processes the
buffer as consecutive chunks of length `planSize` (entry `i` belongs to
the chunk starting at `i / planSize * planSize` and is position
`i % planSize` within it); rustfft panics unless `planSize` divides the
buffer length, which `fft2d`/`ifft2d` below check at the call sites. -/
noncomputable def chunkedApply (planSize : ℕ) (T : (ℕ → ℂ) → ℕ → ℂ)
    (v : ℕ → ℂ) : ℕ → ℂ :=
  fun i => T (fun j => v (i / planSize * planSize + j)) (i % planSize)

/-- Intended (size-matched) value of Rust `fft2d`: 1D FFT of each row,
then of each column; `fft2dChunked` coincides with it on the meaningful
domain exactly when the plan size equals the buffer side. -/
noncomputable def fft2dCore (n : ℕ) (d : ℕ → ℕ → ℂ) : ℕ → ℕ → ℂ :=
  transform_cols (dft1 n) (transform_rows (dft1 n) d)

/-- Value actually computed by Rust `fft2d` with a plan of length
`planSize`: each row, then each column, is processed in chunks of the
plan length. -/
noncomputable def fft2dChunked (planSize : ℕ) (d : ℕ → ℕ → ℂ) :
    ℕ → ℕ → ℂ :=
  transform_cols (chunkedApply planSize (dft1 planSize))
    (transform_rows (chunkedApply planSize (dft1 planSize)) d)

/-- Rust `fft2d` as invoked by `process_channel`: every row/column slice
has length `n`; rustfft's `process` panics (modelled `none`) unless the
stored plan's length divides `n`, and otherwise computes chunked
transforms — equal to the intended full-size transform only when
`planSize = n`, and invalid for the intended transform on every other
dividing mismatch. -/
noncomputable def fft2d (planSize n : ℕ) (d : ℕ → ℕ → ℂ) :
    Option (ℕ → ℕ → ℂ) :=
  if n % planSize = 0 then some (fft2dChunked planSize d) else none

/-- Intended (size-matched) value of Rust `ifft2d`: 1D inverse FFT of
each row, then of each column, then scaling every coefficient by
`1 / (n * n)`. -/
noncomputable def ifft2dCore (n : ℕ) (d : ℕ → ℕ → ℂ) : ℕ → ℕ → ℂ :=
  fun y x =>
    (((n * n : ℕ) : ℂ))⁻¹ *
      transform_cols (idft1 n) (transform_rows (idft1 n) d) y x

/-- Value actually computed by Rust `ifft2d` with a plan of length
`planSize` on an `n × n` buffer: chunked inverse transforms of rows and
columns, then the `1 / (n * n)` scaling. -/
noncomputable def ifft2dChunked (planSize n : ℕ) (d : ℕ → ℕ → ℂ) :
    ℕ → ℕ → ℂ :=
  fun y x =>
    (((n * n : ℕ) : ℂ))⁻¹ *
      transform_cols (chunkedApply planSize (idft1 planSize))
        (transform_rows (chunkedApply planSize (idft1 planSize)) d) y x

/-- Rust `ifft2d` as invoked by `process_channel`, with the same
divisibility condition and chunk semantics as `fft2d`. -/
noncomputable def ifft2d (planSize n : ℕ) (d : ℕ → ℕ → ℂ) :
    Option (ℕ → ℕ → ℂ) :=
  if n % planSize = 0 then some (ifft2dChunked planSize n d) else none

/-- Padding mode from `super::types::PaddingMode`. -/
inductive PaddingMode
  | Zero
  | Reflect
  | Wrap

/-- Options from `super::types::FourierOptions`, restricted to the fields
`process_channel` and `phase_scramble` read (`phase_scramble`,
`intensity`, `padding_mode`). -/
structure FourierOptions where
  phase_scramble : Bool
  intensity : ℝ
  padding_mode : PaddingMode

/-- Value of one cell of the horizontal reflection phase of
`apply_padding` for a row `y < height`: the original value for `x < w`,
the mirror `channel[y, 2*width - x - 1]` for `w ≤ x`.  The guard
`x < 2 * w` is exactly the condition under which the Rust `usize`
expression `2 * width - x - 1` does not underflow (and the resulting
index is then automatically `< width`); `none` models the panic. -/
def reflectRowVal (ch : ℕ → ℕ → ℝ) (w y x : ℕ) : Option ℝ :=
  if x < w then some (ch y x)
  else if x < 2 * w then some (ch y (2 * w - x - 1))
  else none

/-- Value of one cell of the `Reflect` padding: rows `y < height` take the
horizontally reflected row; rows beyond take `padded[2*height - y - 1, x]`,
which is a finalized row `< height` (so its value is `reflectRowVal` of
that row).  The guard `y < 2 * h` is exactly the condition under which
`2 * height - y - 1` does not underflow; `none` models the panic. -/
def reflectVal (ch : ℕ → ℕ → ℝ) (h w y x : ℕ) : Option ℝ :=
  if y < h then reflectRowVal ch w y x
  else if y < 2 * h then reflectRowVal ch w (2 * h - y - 1) x
  else none

/-- Rust `apply_padding`: pads the `height × width` channel to a square of
side `get_optimal_fft_size(max(width, height))`.  `Zero` fills the border
with the `Array2::zeros` default; `Reflect` mirrors rows/columns (`none`
exactly when some mirror index of the loops underflows, i.e. panics);
`Wrap` tiles with `channel[y % height, x % width]` (`none` models the
division-by-zero panic of `%` on an empty dimension). -/
def apply_padding (mode : PaddingMode) (ch : ℕ → ℕ → ℝ) (h w : ℕ) :
    Option (ℕ → ℕ → ℝ) :=
  let ps := get_optimal_fft_size (max w h)
  match mode with
  | PaddingMode.Zero =>
      some fun y x => if y < h ∧ x < w then ch y x else 0
  | PaddingMode.Reflect =>
      if ∀ y < ps, ∀ x < ps, (reflectVal ch h w y x).isSome = true then
        some fun y x => (reflectVal ch h w y x).getD 0
      else none
  | PaddingMode.Wrap =>
      if h = 0 ∨ w = 0 then none
      else some fun y x => ch (y % h) (x % w)

/-- Rust `remove_padding`: extracts the real part of the top-left
`height × width` block of the inverse-transformed data; everything else
is discarded unconditionally. -/
noncomputable def remove_padding (d : ℕ → ℕ → ℂ) : ℕ → ℕ → ℝ :=
  fun y x => (d y x).re

/-- Clamp of `process_channel`: `val.max(0.0).min(1.0)`. -/
noncomputable def clamp01 (x : ℝ) : ℝ :=
  min (max x 0) 1

/-- Rust `v as u8` for a `f64` value `v`: saturating cast (truncate toward
zero, clamp into `[0, 255]`); on the clamped pipeline values in
`[0, 255]` this is exactly `⌊v⌋`. -/
noncomputable def asU8 (x : ℝ) : ℕ :=
  (min 255 ⌊x⌋).toNat

/-- Conversion of `to_complex`: a real plane viewed as a complex buffer. -/
noncomputable def to_complex (g : ℕ → ℕ → ℝ) : ℕ → ℕ → ℂ :=
  fun y x => ((g y x : ℝ) : ℂ)

/-- An 8-bit RGB image: dimensions plus pixel access
`pix x y c` = channel `c` of the pixel at `(x, y)` (the `image` crate's
`get_pixel(x, y)` order).  Channel values of a well-formed image are
`≤ 255`; theorems state this where they need it. -/
structure Image where
  width : ℕ
  height : ℕ
  pix : ℕ → ℕ → Fin 3 → ℕ

/-- Scrambler state (`FourierScrambler`): the transform plans are built
once, for `planSize`; the options and the PRNG stream are fixed.  The
`width`/`height` fields of the Rust struct are overwritten from each
image at the start of every `scramble` call and are therefore modelled as
per-call parameters, and the PRNG cursor is threaded explicitly. -/
structure FourierScrambler where
  planSize : ℕ
  options : FourierOptions
  stream : ℕ → ℝ

/-- Rust `FourierScrambler::new`: sizes the forward/inverse plans from the
construction-time dimensions. -/
def FourierScrambler.new (width height : ℕ) (options : FourierOptions)
    (stream : ℕ → ℝ) : FourierScrambler :=
  { planSize := get_optimal_fft_size (max width height)
    options := options
    stream := stream }

/-- Rust `split_channels` for one channel `c`: normalized plane
`channel[y, x] = pixel(x, y)[c] / 255`. -/
noncomputable def splitChannel (img : Image) (c : Fin 3) : ℕ → ℕ → ℝ :=
  fun y x => ((img.pix x y c : ℝ)) / 255

/-- Rust `combine_channels` at one output pixel:
`(channels[c][[y, x]] * 255.0) as u8`. -/
noncomputable def combinePix (a b c2 : ℕ → ℕ → ℝ) :
    ℕ → ℕ → Fin 3 → ℕ :=
  fun x y c =>
    asU8 ((if c.val = 0 then a y x else if c.val = 1 then b y x else c2 y x)
      * 255)

/-- Rust `process_channel`: pad, forward transform, optional phase
scramble, inverse transform, unpad, clamp to `[0, 1]`.  Returns the
processed plane together with the advanced PRNG cursor. -/
noncomputable def process_channel (S : FourierScrambler) (h w : ℕ)
    (ch : ℕ → ℕ → ℝ) (cur : ℕ) : Option ((ℕ → ℕ → ℝ) × ℕ) :=
  (apply_padding S.options.padding_mode ch h w).bind fun padded =>
    let n := get_optimal_fft_size (max w h)
    (fft2d S.planSize n (to_complex padded)).bind fun freq =>
      let scr :=
        if S.options.phase_scramble then
          phase_scramble n S.options.intensity S.stream cur freq
        else (freq, cur)
      (ifft2d S.planSize n scr.1).map fun spatial =>
        (fun y x => clamp01 (remove_padding spatial y x), scr.2)

/-- Rust `scramble`: sets the working dimensions from the image, splits
the three channels, processes them sequentially in R, G, B order (the
PRNG cursor flows from one channel to the next), and recombines. -/
noncomputable def scramble (S : FourierScrambler) (img : Image) (cur : ℕ) :
    Option (Image × ℕ) :=
  (process_channel S img.height img.width (splitChannel img 0) cur).bind
    fun p0 =>
      (process_channel S img.height img.width (splitChannel img 1)
          p0.2).bind fun p1 =>
        (process_channel S img.height img.width (splitChannel img 2)
            p1.2).map fun p2 =>
          ({ width := img.width
             height := img.height
             pix := combinePix p0.1 p1.1 p2.1 }, p2.2)

/-- Axis-aligned face region in source-image pixel coordinates, as
produced by the external detector. -/
structure FaceRegion where
  x1 : ℕ
  y1 : ℕ
  x2 : ℕ
  y2 : ℕ

/-- Background mode from `crate::BackgroundMode`. -/
inductive BackgroundMode
  | Include
  | Exclude

/-- Rust `DynamicImage::new_rgb8(width, height)`: a canvas whose every
channel value is 0. -/
def blankImage (w h : ℕ) : Image :=
  { width := w, height := h, pix := fun _ _ _ => 0 }

/-- Crop of the source image at a region's box (the per-region
`region_img` loop: `region_img.put_pixel(x, y, image.get_pixel(x + x1, y + y1))`
for `x < x2 - x1`, `y < y2 - y1`; unwritten cells keep the fresh canvas
default 0). -/
def cropRegion (img : Image) (r : FaceRegion) : Image :=
  { width := r.x2 - r.x1
    height := r.y2 - r.y1
    pix := fun x y c =>
      if x < r.x2 - r.x1 ∧ y < r.y2 - r.y1 then
        img.pix (x + r.x1) (y + r.y1) c
      else 0 }

/-- Paste of a processed region back into a canvas (the
`result.put_pixel(x + x1, y + y1, processed.get_pixel(x, y))` loop): a
pixel is overwritten exactly when it lies in the written box. -/
def pasteRegion (canvas : Image) (r : FaceRegion) (proc : Image) : Image :=
  { canvas with
    pix := fun x y c =>
      if r.x1 ≤ x ∧ x < r.x1 + (r.x2 - r.x1) ∧
          r.y1 ≤ y ∧ y < r.y1 + (r.y2 - r.y1) then
        proc.pix (x - r.x1) (y - r.y1) c
      else canvas.pix x y c }

/-- One region iteration of `scramble_with_face_detection`: crop from the
source image, scramble the crop (threading the PRNG cursor), paste into
the accumulated canvas; a failing scramble aborts the whole call. -/
noncomputable def regionPass (S : FourierScrambler) (img : Image) :
    Option (Image × ℕ) → FaceRegion → Option (Image × ℕ) :=
  fun acc r =>
    acc.bind fun s =>
      (scramble S (cropRegion img r) s.2).map fun p =>
        (pasteRegion s.1 r p.1, p.2)

/-- Rust `scramble_with_face_detection`, with the externally detected
region list passed in (the detector is an external collaborator): Include
mode starts from a clone of the original, Exclude mode from a fresh blank
canvas of the original's dimensions; regions are processed in detector
order. -/
noncomputable def scramble_with_face_detection (S : FourierScrambler)
    (img : Image) (cur : ℕ) (mode : BackgroundMode)
    (regions : List FaceRegion) : Option (Image × ℕ) :=
  match mode with
  | BackgroundMode.Include =>
      List.foldl (regionPass S img) (some (img, cur)) regions
  | BackgroundMode.Exclude =>
      List.foldl (regionPass S img)
        (some (blankImage img.width img.height, cur)) regions

/-! ## Properties of `is_power_of_two` and `get_optimal_fft_size` -/

/-- The bit trick `n != 0 && (n & (n - 1)) == 0` recognizes exactly the
powers of two. -/
theorem is_power_of_two_iff (n : ℕ) :
    is_power_of_two n = true ↔ ∃ k, n = 2 ^ k := by
  constructor
  · intro h
    rw [is_power_of_two, Bool.and_eq_true, bne_iff_ne, beq_iff_eq] at h
    obtain ⟨h0, hand⟩ := h
    by_contra hnp
    push_neg at hnp
    set k := n.log2 with hk
    have h1 : 2 ^ k ≤ n := Nat.log2_self_le h0
    have h2 : n < 2 ^ (k + 1) := Nat.lt_log2_self
    have hlt : 2 ^ k < n := lt_of_le_of_ne h1 fun he => hnp k he.symm
    have hb1 : n.testBit k = true := by
      rw [Nat.testBit_to_div_mod]
      have hd : n / 2 ^ k = 1 := by
        apply Nat.div_eq_of_lt_le (by simpa using h1)
        rw [pow_succ] at h2
        omega
      simp [hd]
    have hb2 : (n - 1).testBit k = true := by
      rw [Nat.testBit_to_div_mod]
      have hd : (n - 1) / 2 ^ k = 1 := by
        apply Nat.div_eq_of_lt_le (by omega)
        rw [pow_succ] at h2
        omega
      simp [hd]
    have : (n &&& (n - 1)).testBit k = true := by
      rw [Nat.testBit_land, hb1, hb2]
      rfl
    rw [hand] at this
    simp [Nat.zero_testBit] at this
  · rintro ⟨k, rfl⟩
    rw [is_power_of_two, Bool.and_eq_true, bne_iff_ne, beq_iff_eq]
    refine ⟨by positivity, ?_⟩
    apply Nat.eq_of_testBit_eq
    intro i
    rw [Nat.testBit_land, Nat.testBit_two_pow, Nat.testBit_two_pow_sub_one,
      Nat.zero_testBit]
    rcases eq_or_ne k i with h | h
    · subst h
      simp
    · simp [h]

/-- With sufficient fuel, the increment loop of `get_optimal_fft_size`
reaches exactly the least power of two that is `≥ s`. -/
theorem fftSizeGo_spec (fuel s p : ℕ) (hp : is_power_of_two p = true)
    (hsp : s ≤ p) (hmin : ∀ m, s ≤ m → is_power_of_two m = true → p ≤ m)
    (hfuel : p ≤ s + fuel) : fftSizeGo fuel s = p := by
  induction fuel generalizing s with
  | zero =>
    have : s = p := by omega
    simpa [fftSizeGo] using this
  | succ f ih =>
    by_cases h : is_power_of_two s
    · have : s = p := le_antisymm hsp (hmin s le_rfl h)
      simpa [fftSizeGo, h] using this
    · rw [fftSizeGo, if_neg (by simp [h])]
      have hne : s ≠ p := fun he => h (he ▸ hp)
      exact ih (s + 1) (by omega)
        (fun m hm hpm => hmin m (by omega) hpm) (by omega)

/-- Characterization of `get_optimal_fft_size s`: it is a power of two,
it is `≥ s`, and it is the least such value. -/
theorem get_optimal_fft_size_spec (s : ℕ) :
    is_power_of_two (get_optimal_fft_size s) = true ∧
    s ≤ get_optimal_fft_size s ∧
    ∀ m, s ≤ m → is_power_of_two m = true → get_optimal_fft_size s ≤ m := by
  have hex : ∃ m, s ≤ m ∧ is_power_of_two m = true :=
    ⟨2 ^ s, le_of_lt (Nat.lt_two_pow s), (is_power_of_two_iff _).mpr ⟨s, rfl⟩⟩
  have hp := Nat.find_spec hex
  have hmin : ∀ m, s ≤ m → is_power_of_two m = true → Nat.find hex ≤ m :=
    fun m hm hpm => Nat.find_min' hex ⟨hm, hpm⟩
  have hle : Nat.find hex ≤ 2 ^ s :=
    Nat.find_min' hex ⟨le_of_lt (Nat.lt_two_pow s),
      (is_power_of_two_iff _).mpr ⟨s, rfl⟩⟩
  have heq : get_optimal_fft_size s = Nat.find hex :=
    fftSizeGo_spec (2 ^ s) s (Nat.find hex) hp.2 hp.1 hmin (by omega)
  rw [heq]
  exact ⟨hp.2, hp.1, hmin⟩

/-- Padded sizes are at least the requested size. -/
theorem get_optimal_fft_size_ge (s : ℕ) : s ≤ get_optimal_fft_size s :=
  (get_optimal_fft_size_spec s).2.1

/-- Padded sizes are positive. -/
theorem get_optimal_fft_size_pos (s : ℕ) : 0 < get_optimal_fft_size s := by
  obtain ⟨k, hk⟩ := (is_power_of_two_iff _).mp (get_optimal_fft_size_spec s).1
  rw [hk]
  positivity

/-- C7: for every width and height (at least one positive), the padded
size is the smallest power of two that is greater than or equal to
`max(width, height)`; in particular it is a power of two and at least
each original dimension. -/
theorem claim7_padded_size_least_power_of_two (w h : ℕ)
    (hpos : 0 < w ∨ 0 < h) :
    (∃ k, get_optimal_fft_size (max w h) = 2 ^ k) ∧
    w ≤ get_optimal_fft_size (max w h) ∧
    h ≤ get_optimal_fft_size (max w h) ∧
    ∀ m, max w h ≤ m → (∃ k, m = 2 ^ k) →
      get_optimal_fft_size (max w h) ≤ m := by
  obtain ⟨hpow, hge, hmin⟩ := get_optimal_fft_size_spec (max w h)
  refine ⟨(is_power_of_two_iff _).mp hpow, ?_, ?_, ?_⟩
  · exact le_trans (le_max_left w h) hge
  · exact le_trans (le_max_right w h) hge
  · exact fun m hm hpm => hmin m hm ((is_power_of_two_iff _).mpr hpm)

/-- Witness for C7 at `width = 3`, `height = 2`. -/
theorem claim7_witness :
    (∃ k, get_optimal_fft_size (max 3 2) = 2 ^ k) ∧
    3 ≤ get_optimal_fft_size (max 3 2) ∧
    2 ≤ get_optimal_fft_size (max 3 2) := by
  obtain ⟨h1, h2, h3, _⟩ :=
    claim7_padded_size_least_power_of_two 3 2 (Or.inl (by decide))
  exact ⟨h1, h2, h3⟩

/-- C10: `get_optimal_fft_size` is total on its supported domain: for
every size not above `2 ^ 63` the result is a power of two that again
fits below `2 ^ 63` (so every intermediate loop value stays inside the
machine word), the loop terminates after exactly
`get_optimal_fft_size size - size` increments (any fuel at least that
large yields the same value), and size `0` yields `1`. -/
theorem claim10_fft_size_total (size : ℕ) (hsz : size ≤ 2 ^ 63) :
    (∃ k, get_optimal_fft_size size = 2 ^ k) ∧
    get_optimal_fft_size size ≤ 2 ^ 63 ∧
    (∀ fuel, get_optimal_fft_size size - size ≤ fuel →
      fftSizeGo fuel size = get_optimal_fft_size size) ∧
    get_optimal_fft_size 0 = 1 := by
  obtain ⟨hpow, hge, hmin⟩ := get_optimal_fft_size_spec size
  refine ⟨(is_power_of_two_iff _).mp hpow, ?_, ?_, by decide⟩
  · exact hmin (2 ^ 63) hsz ((is_power_of_two_iff _).mpr ⟨63, rfl⟩)
  · intro fuel hfuel
    exact fftSizeGo_spec fuel size (get_optimal_fft_size size) hpow hge hmin
      (by omega)

/-- Witness for C10 at `size = 5` (and the `size = 0` corner). -/
theorem claim10_witness :
    (∃ k, get_optimal_fft_size 5 = 2 ^ k) ∧
    fftSizeGo 3 5 = get_optimal_fft_size 5 ∧
    get_optimal_fft_size 0 = 1 := by
  refine ⟨(claim10_fft_size_total 5 (by norm_num)).1, ?_, ?_⟩
  · exact (claim10_fft_size_total 5 (by norm_num)).2.2.1 3 (by decide)
  · exact (claim10_fft_size_total 0 (by norm_num)).2.2.2

/-! ## Properties of `angle_difference` -/

/-- The first wrap loop does nothing when the value is already `≤ π`. -/
theorem wrapDown_of_le {d : ℝ} (h : d ≤ Real.pi) (fuel : ℕ) :
    wrapDown fuel d = d := by
  cases fuel with
  | zero => rfl
  | succ f => rw [wrapDown, if_neg (not_lt.mpr h)]

/-- The second wrap loop does nothing when the value is already `≥ -π`. -/
theorem wrapUp_of_ge {d : ℝ} (h : -Real.pi ≤ d) (fuel : ℕ) :
    wrapUp fuel d = d := by
  cases fuel with
  | zero => rfl
  | succ f => rw [wrapUp, if_neg (not_lt.mpr h)]

/-- Each iteration of the first wrap loop subtracts `2π`. -/
theorem wrapDown_congr (fuel : ℕ) (d : ℝ) :
    ∃ m : ℕ, wrapDown fuel d = d - 2 * Real.pi * m := by
  induction fuel generalizing d with
  | zero => exact ⟨0, by simp [wrapDown]⟩
  | succ f ih =>
    by_cases h : Real.pi < d
    · obtain ⟨m, hm⟩ := ih (d - 2 * Real.pi)
      refine ⟨m + 1, ?_⟩
      rw [wrapDown, if_pos h, hm]
      push_cast
      ring
    · exact ⟨0, by simp [wrapDown, h]⟩

/-- Each iteration of the second wrap loop adds `2π`. -/
theorem wrapUp_congr (fuel : ℕ) (d : ℝ) :
    ∃ m : ℕ, wrapUp fuel d = d + 2 * Real.pi * m := by
  induction fuel generalizing d with
  | zero => exact ⟨0, by simp [wrapUp]⟩
  | succ f ih =>
    by_cases h : d < -Real.pi
    · obtain ⟨m, hm⟩ := ih (d + 2 * Real.pi)
      refine ⟨m + 1, ?_⟩
      rw [wrapUp, if_pos h, hm]
      push_cast
      ring
    · exact ⟨0, by simp [wrapUp, h]⟩

/-- Wrapping only changes an angle by an integer multiple of `2π`. -/
theorem angle_difference_congr (a b : ℝ) :
    ∃ m : ℤ, angle_difference a b = a - b + 2 * Real.pi * m := by
  obtain ⟨m1, hm1⟩ := wrapDown_congr (⌈|a - b|⌉₊ + 1) (a - b)
  obtain ⟨m2, hm2⟩ :=
    wrapUp_congr (⌈|a - b|⌉₊ + 1) (wrapDown (⌈|a - b|⌉₊ + 1) (a - b))
  refine ⟨(m2 : ℤ) - m1, ?_⟩
  rw [angle_difference, hm2, hm1]
  push_cast
  ring

/-- With enough fuel the first wrap loop ends `≤ π`. -/
theorem wrapDown_le {fuel : ℕ} {d : ℝ}
    (hf : d ≤ Real.pi + 2 * Real.pi * fuel) : wrapDown fuel d ≤ Real.pi := by
  induction fuel generalizing d with
  | zero => simpa [wrapDown] using hf
  | succ f ih =>
    by_cases h : Real.pi < d
    · rw [wrapDown, if_pos h]
      apply ih
      push_cast at hf ⊢
      linarith
    · rw [wrapDown, if_neg h]
      exact not_lt.mp h

/-- The first wrap loop never drops below `-π` when it starts above. -/
theorem wrapDown_gt {fuel : ℕ} {d : ℝ} (hd : -Real.pi < d) :
    -Real.pi < wrapDown fuel d := by
  induction fuel generalizing d with
  | zero => simpa [wrapDown] using hd
  | succ f ih =>
    by_cases h : Real.pi < d
    · rw [wrapDown, if_pos h]
      exact ih (by linarith [Real.pi_pos])
    · rwa [wrapDown, if_neg h]

/-- With enough fuel the second wrap loop ends `≥ -π`. -/
theorem wrapUp_ge {fuel : ℕ} {d : ℝ}
    (hf : -Real.pi - 2 * Real.pi * fuel ≤ d) : -Real.pi ≤ wrapUp fuel d := by
  induction fuel generalizing d with
  | zero => simpa [wrapUp] using hf
  | succ f ih =>
    by_cases h : d < -Real.pi
    · rw [wrapUp, if_pos h]
      apply ih
      push_cast at hf ⊢
      linarith
    · rw [wrapUp, if_neg h]
      exact not_lt.mp h

/-- The second wrap loop never rises above `π` when it starts below. -/
theorem wrapUp_lt {fuel : ℕ} {d : ℝ} (hd : d < Real.pi) :
    wrapUp fuel d < Real.pi := by
  induction fuel generalizing d with
  | zero => simpa [wrapUp] using hd
  | succ f ih =>
    by_cases h : d < -Real.pi
    · rw [wrapUp, if_pos h]
      exact ih (by linarith [Real.pi_pos])
    · rwa [wrapUp, if_neg h]

/-- The chosen fuel is sufficient: `angle_difference` always lands in
`[-π, π]`, exactly as the source's unbounded `while` loops guarantee. -/
theorem angle_difference_bounds (a b : ℝ) :
    -Real.pi ≤ angle_difference a b ∧ angle_difference a b ≤ Real.pi := by
  set F := ⌈|a - b|⌉₊ + 1 with hF
  set d := a - b with hd
  have hceil : |d| ≤ (⌈|d|⌉₊ : ℝ) := Nat.le_ceil _
  have hpi3 : (3 : ℝ) < Real.pi := Real.pi_gt_three
  have hFbound : d ≤ Real.pi + 2 * Real.pi * F := by
    have : d ≤ |d| := le_abs_self d
    have hF' : (F : ℝ) = (⌈|d|⌉₊ : ℝ) + 1 := by push_cast [hF]; ring
    nlinarith
  rcases le_or_lt d Real.pi with hc | hc
  · rw [angle_difference, ← hd, ← hF, wrapDown_of_le hc]
    rcases le_or_lt (-Real.pi) d with h2 | h2
    · rw [wrapUp_of_ge h2]
      exact ⟨h2, hc⟩
    · constructor
      · apply wrapUp_ge
        have : -d ≤ |d| := neg_le_abs d
        have hF' : (F : ℝ) = (⌈|d|⌉₊ : ℝ) + 1 := by push_cast [hF]; ring
        nlinarith
      · exact le_of_lt (wrapUp_lt (lt_trans h2 (by linarith [Real.pi_pos])))
  · rw [angle_difference, ← hd, ← hF]
    have hdown_le : wrapDown F d ≤ Real.pi := wrapDown_le hFbound
    have hdown_gt : -Real.pi < wrapDown F d := wrapDown_gt (by linarith)
    rw [wrapUp_of_ge (le_of_lt hdown_gt)]
    exact ⟨le_of_lt hdown_gt, hdown_le⟩

/-- When the initial difference is already in `[-π, π]` neither loop runs. -/
theorem angle_difference_of_mem {a b : ℝ} (h1 : -Real.pi ≤ a - b)
    (h2 : a - b ≤ Real.pi) : angle_difference a b = a - b := by
  rw [angle_difference, wrapDown_of_le h2, wrapUp_of_ge h1]

/-! ## Properties of `scrambleCoeff` -/

/-- The reconstruction `from_polar(mag, new_phase)` preserves the
magnitude of the coefficient exactly. -/
theorem abs_scrambleCoeff (t r : ℝ) (z : ℂ) :
    Complex.abs (scrambleCoeff t r z) = Complex.abs z := by
  rw [scrambleCoeff, map_mul, Complex.abs_exp_ofReal_mul_I, mul_one,
    Complex.abs_ofReal, abs_of_nonneg (Complex.abs.nonneg z)]

/-- At intensity `0` the phase delta contributes nothing and the
coefficient is rebuilt exactly as it was. -/
theorem scrambleCoeff_zero (r : ℝ) (z : ℂ) : scrambleCoeff 0 r z = z := by
  rw [scrambleCoeff]
  simp only [zero_mul, add_zero]
  exact Complex.abs_mul_exp_arg_mul_I z

/-- At intensity `1` the new phase is exactly the drawn random phase
(modulo `2π`): the rebuilt coefficient is `mag · exp(i · random_phase)`. -/
theorem scrambleCoeff_one (r : ℝ) (z : ℂ) :
    scrambleCoeff 1 r z =
      ((Complex.abs z : ℝ) : ℂ) * Complex.exp ((r : ℂ) * Complex.I) := by
  obtain ⟨m, hm⟩ := angle_difference_congr r z.arg
  rw [scrambleCoeff, hm]
  congr 1
  have harg : ((z.arg + 1 * (r - z.arg + 2 * Real.pi * m) : ℝ) : ℂ) *
      Complex.I = (r : ℂ) * Complex.I + (m : ℂ) * (2 * (Real.pi : ℂ) *
        Complex.I) := by
    push_cast
    ring
  rw [harg, Complex.exp_add, Complex.exp_int_mul_two_pi_mul_I, mul_one]

/-! ## Coordinate enumeration, symmetry and update helpers -/

/-- Membership in the row-major enumeration is exactly being inside the
grid. -/
theorem mem_coordList {n : ℕ} {p : ℕ × ℕ} :
    p ∈ coordList n ↔ p.1 < n ∧ p.2 < n := by
  obtain ⟨a, b⟩ := p
  simp only [coordList, List.mem_flatMap, List.mem_map, List.mem_range]
  constructor
  · rintro ⟨y, hy, x, hx, heq⟩
    obtain ⟨rfl, rfl⟩ := Prod.mk.injEq .. ▸ heq
    exact ⟨hy, hx⟩
  · rintro ⟨ha, hb⟩
    exact ⟨a, ha, b, hb, rfl⟩

/-- The row-major enumeration lists every coordinate once. -/
theorem nodup_coordList (n : ℕ) : (coordList n).Nodup := by
  rw [coordList, List.nodup_flatMap]
  constructor
  · intro y _
    exact (List.nodup_range n).map fun a b hab =>
      congrArg Prod.snd hab
  · apply (List.nodup_range n).imp
    intro y y' hne q hq hq'
    simp only [List.mem_map, List.mem_range] at hq hq'
    obtain ⟨x, _, rfl⟩ := hq
    obtain ⟨x', _, h⟩ := hq'
    exact hne (congrArg Prod.fst h).symm

/-- Symmetric coordinates stay inside the grid. -/
theorem symCoord_lt {n y : ℕ} (h : y < n) : symCoord n y < n := by
  rw [symCoord]
  split <;> omega

/-- The symmetric-coordinate map is an involution on the grid. -/
theorem symCoord_symCoord {n y : ℕ} (h : y < n) :
    symCoord n (symCoord n y) = y := by
  rcases eq_or_ne y 0 with rfl | hy
  · simp [symCoord]
  · have h1 : symCoord n y = n - y := by rw [symCoord, if_neg hy]
    have h2 : n - y ≠ 0 := by omega
    rw [h1, symCoord, if_neg h2]
    omega

/-- Unfolding of the skip test. -/
theorem skipb_iff {n a b : ℕ} :
    skipb n (a, b) = true ↔
      symCoord n a < a ∨ (a = symCoord n a ∧ symCoord n b < b) := by
  simp [skipb, Bool.or_eq_true, Bool.and_eq_true, decide_eq_true_eq]

/-- The Hermitian partner of a visited, non-self-symmetric coordinate is
skipped. -/
theorem skipb_symCoord {n a b : ℕ} (h1 : a < n) (h2 : b < n)
    (hv : skipb n (a, b) = false)
    (hns : ¬(a = symCoord n a ∧ b = symCoord n b)) :
    skipb n (symCoord n a, symCoord n b) = true := by
  have hv' : ¬(symCoord n a < a ∨ (a = symCoord n a ∧ symCoord n b < b)) := by
    rw [← skipb_iff]
    simp [hv]
  push_neg at hv'
  rw [skipb_iff]
  simp only [symCoord_symCoord h1, symCoord_symCoord h2]
  rcases lt_or_eq_of_le hv'.1 with hlt | heq
  · exact Or.inl hlt
  · have h3 := hv'.2 heq
    have h4 : b ≠ symCoord n b := fun hb => hns ⟨heq, hb⟩
    omega

/-- The Hermitian partner of a skipped coordinate is visited. -/
theorem skipb_symCoord' {n a b : ℕ} (h1 : a < n) (h2 : b < n)
    (hs : skipb n (a, b) = true) :
    skipb n (symCoord n a, symCoord n b) = false := by
  rw [skipb_iff] at hs
  rw [Bool.eq_false_iff, Ne, skipb_iff]
  simp only [symCoord_symCoord h1, symCoord_symCoord h2]
  omega

/-- Reading back the cell just written. -/
theorem upd2_same (d : ℕ → ℕ → ℂ) (y x : ℕ) (v : ℂ) :
    upd2 d y x v y x = v := by
  simp [upd2]

/-- Reading any other cell. -/
theorem upd2_ne (d : ℕ → ℕ → ℂ) (y x : ℕ) (v : ℂ) {y' x' : ℕ}
    (h : ¬(y' = y ∧ x' = x)) : upd2 d y x v y' x' = d y' x' := by
  simp [upd2, h]

/-- A `takeWhile (· ≠ p)` scan that stops exactly at the first occurrence
of `p`. -/
theorem takeWhile_ne_append {α : Type} [DecidableEq α] {p0 : α}
    (l₁ l₂ : List α) (h : p0 ∉ l₁) :
    (l₁ ++ p0 :: l₂).takeWhile (fun q => decide (q ≠ p0)) = l₁ := by
  induction l₁ with
  | nil => simp [List.takeWhile_cons]
  | cons a l ih =>
    have ha : a ≠ p0 := fun he => h (he ▸ List.mem_cons_self a l)
    have hl : p0 ∉ l := fun hm => h (List.mem_cons_of_mem a hm)
    simp only [List.cons_append, List.takeWhile_cons, decide_eq_true_eq]
    rw [if_pos ha, ih hl]

/-- A `takeWhile (· ≠ p)` scan is insensitive to anything after the first
occurrence of `p`. -/
theorem takeWhile_ne_of_mem {α : Type} [DecidableEq α] {p0 : α}
    (l₁ l₂ : List α) (h : p0 ∈ l₁) :
    (l₁ ++ l₂).takeWhile (fun q => decide (q ≠ p0)) =
      l₁.takeWhile (fun q => decide (q ≠ p0)) := by
  induction l₁ with
  | nil => cases h
  | cons a l ih =>
    rcases eq_or_ne a p0 with rfl | ha
    · simp [List.takeWhile_cons]
    · have hl : p0 ∈ l := by
        rcases List.mem_cons.mp h with he | hm
        · exact absurd he.symm ha
        · exact hm
      simp only [List.cons_append, List.takeWhile_cons, decide_eq_true_eq]
      rw [if_pos ha, if_pos ha, ih hl]

/-! ## Characterization of the `phase_scramble` fold -/

/-- A skipped coordinate leaves the loop state unchanged. -/
theorem scrambleStep_skip {n : ℕ} {t : ℝ} {stream : ℕ → ℝ}
    {s : (ℕ → ℕ → ℂ) × ℕ} {p : ℕ × ℕ} (hs : skipb n p = true) :
    scrambleStep n t stream s p = s := by
  unfold scrambleStep
  rw [if_pos hs]

/-- A visited self-symmetric coordinate rewrites only itself. -/
theorem scrambleStep_visit_self {n : ℕ} {t : ℝ} {stream : ℕ → ℝ}
    {s : (ℕ → ℕ → ℂ) × ℕ} {a b : ℕ} (hs : skipb n (a, b) = false)
    (hself : a = symCoord n a ∧ b = symCoord n b) :
    scrambleStep n t stream s (a, b) =
      (upd2 s.1 a b (scrambleCoeff t (stream s.2) (s.1 a b)), s.2 + 1) := by
  unfold scrambleStep
  rw [if_neg (by simp [hs])]
  dsimp only
  rw [if_pos hself]

/-- A visited non-self-symmetric coordinate rewrites itself and writes
the conjugate into its partner. -/
theorem scrambleStep_visit_pair {n : ℕ} {t : ℝ} {stream : ℕ → ℝ}
    {s : (ℕ → ℕ → ℂ) × ℕ} {a b : ℕ} (hs : skipb n (a, b) = false)
    (hself : ¬(a = symCoord n a ∧ b = symCoord n b)) :
    scrambleStep n t stream s (a, b) =
      (upd2 (upd2 s.1 a b (scrambleCoeff t (stream s.2) (s.1 a b)))
        (symCoord n a) (symCoord n b)
        (starRingEnd ℂ (scrambleCoeff t (stream s.2) (s.1 a b))),
        s.2 + 1) := by
  unfold scrambleStep
  rw [if_neg (by simp [hs])]
  dsimp only
  rw [if_neg hself]

/-- The per-cell clause of `PSInv` is unchanged by appending a coordinate
that is neither the cell (when visited) nor the cell's partner (when
skipped). -/
theorem psRHS_append (n : ℕ) (t : ℝ) (stream : ℕ → ℝ) (cur : ℕ)
    (d : ℕ → ℕ → ℂ) (l₁ : List (ℕ × ℕ)) (p : ℕ × ℕ) (y x : ℕ)
    (hne1 : skipb n (y, x) = false → (y, x) ≠ p)
    (hne2 : skipb n (y, x) = true → (symCoord n y, symCoord n x) ≠ p) :
    (if skipb n (y, x) = true then
        if (symCoord n y, symCoord n x) ∈ l₁ ++ [p] then
          starRingEnd ℂ (scrambleCoeff t
            (stream (pcur n cur (l₁ ++ [p]) (symCoord n y, symCoord n x)))
            (d (symCoord n y) (symCoord n x)))
        else d y x
      else
        if (y, x) ∈ l₁ ++ [p] then
          scrambleCoeff t (stream (pcur n cur (l₁ ++ [p]) (y, x))) (d y x)
        else d y x) =
      (if skipb n (y, x) = true then
        if (symCoord n y, symCoord n x) ∈ l₁ then
          starRingEnd ℂ (scrambleCoeff t
            (stream (pcur n cur l₁ (symCoord n y, symCoord n x)))
            (d (symCoord n y) (symCoord n x)))
        else d y x
      else
        if (y, x) ∈ l₁ then
          scrambleCoeff t (stream (pcur n cur l₁ (y, x))) (d y x)
        else d y x) := by
  have hmem : ∀ q : ℕ × ℕ, q ≠ p → (q ∈ l₁ ++ [p] ↔ q ∈ l₁) := by
    intro q hq
    rw [List.mem_append, List.mem_singleton]
    simp [hq]
  have hpc : ∀ q : ℕ × ℕ, q ∈ l₁ →
      pcur n cur (l₁ ++ [p]) q = pcur n cur l₁ q := by
    intro q hq
    rw [pcur, pcur, takeWhile_ne_of_mem l₁ [p] hq]
  by_cases hsx : skipb n (y, x) = true
  · rw [if_pos hsx, if_pos hsx]
    by_cases hm : (symCoord n y, symCoord n x) ∈ l₁
    · rw [if_pos hm, if_pos ((hmem _ (hne2 hsx)).mpr hm), hpc _ hm]
    · rw [if_neg hm, if_neg fun hc => hm ((hmem _ (hne2 hsx)).mp hc)]
  · have hsx' : skipb n (y, x) = false := Bool.not_eq_true _ ▸ hsx
    rw [if_neg hsx, if_neg hsx]
    by_cases hm : (y, x) ∈ l₁
    · rw [if_pos hm, if_pos ((hmem _ (hne1 hsx')).mpr hm), hpc _ hm]
    · rw [if_neg hm, if_neg fun hc => hm ((hmem _ (hne1 hsx')).mp hc)]

/-- The invariant holds before any coordinate is processed. -/
theorem psInv_base (n : ℕ) (t : ℝ) (stream : ℕ → ℝ) (cur : ℕ)
    (d : ℕ → ℕ → ℂ) : PSInv n t stream cur d [] (d, cur) := by
  refine ⟨by simp, fun y hy x hx => ?_⟩
  by_cases hs : skipb n (y, x) = true
  · rw [if_pos hs, if_neg (List.not_mem_nil _)]
  · rw [if_neg hs, if_neg (List.not_mem_nil _)]

/-- One loop iteration preserves the invariant. -/
theorem psInv_step (n : ℕ) (t : ℝ) (stream : ℕ → ℝ) (cur : ℕ)
    (d : ℕ → ℕ → ℂ) (l₁ l₂ : List (ℕ × ℕ)) (p : ℕ × ℕ)
    (s : (ℕ → ℕ → ℂ) × ℕ) (hL : coordList n = l₁ ++ p :: l₂)
    (hinv : PSInv n t stream cur d l₁ s) :
    PSInv n t stream cur d (l₁ ++ [p]) (scrambleStep n t stream s p) := by
  obtain ⟨a, b⟩ := p
  obtain ⟨hcur, hcell⟩ := hinv
  have hpmem : (a, b) ∈ coordList n := by
    rw [hL]
    exact List.mem_append_right _ (List.mem_cons_self _ _)
  have hp1 : a < n := (mem_coordList.mp hpmem).1
  have hp2 : b < n := (mem_coordList.mp hpmem).2
  have hnd : (l₁ ++ (a, b) :: l₂).Nodup := hL ▸ nodup_coordList n
  have hpnotin : (a, b) ∉ l₁ := by
    rw [List.nodup_append] at hnd
    exact fun hmem => hnd.2.2 hmem (List.mem_cons_self _ _)
  cases hs : skipb n (a, b) with
  | true =>
    have hcount : (l₁ ++ [(a, b)]).countP (fun q => !skipb n q) =
        l₁.countP (fun q => !skipb n q) := by
      rw [List.countP_append, List.countP_cons, List.countP_nil]
      simp [hs]
    rw [scrambleStep_skip hs]
    refine ⟨by rw [hcount]; exact hcur, fun y hy x hx => ?_⟩
    rw [hcell y hy x hx]
    refine (psRHS_append n t stream cur d l₁ (a, b) y x ?_ ?_).symm
    · intro hv hyp
      rw [hyp] at hv
      rw [hv] at hs
      exact Bool.false_ne_true hs
    · intro hsk hyp
      have hq := skipb_symCoord' hy hx hsk
      rw [hyp] at hq
      rw [hq] at hs
      exact Bool.false_ne_true hs
  | false =>
    have hcount : (l₁ ++ [(a, b)]).countP (fun q => !skipb n q) =
        l₁.countP (fun q => !skipb n q) + 1 := by
      rw [List.countP_append, List.countP_cons, List.countP_nil]
      simp [hs]
    have hdab : s.1 a b = d a b := by
      have h := hcell a hp1 b hp2
      rw [if_neg (by rw [hs]; exact Bool.false_ne_true), if_neg hpnotin] at h
      exact h
    have hpcur : pcur n cur (l₁ ++ [(a, b)]) (a, b) = s.2 := by
      rw [pcur, takeWhile_ne_append l₁ [] hpnotin, hcur]
    have hmemself : (a, b) ∈ l₁ ++ [(a, b)] :=
      List.mem_append_right _ (List.mem_cons_self _ _)
    by_cases hself : a = symCoord n a ∧ b = symCoord n b
    · rw [scrambleStep_visit_self hs hself]
      refine ⟨?_, fun y hy x hx => ?_⟩
      · dsimp only
        rw [hcount, hcur]
        omega
      · dsimp only
        by_cases hyx : y = a ∧ x = b
        · rw [hyx.1, hyx.2, upd2_same, hdab,
            if_neg (by rw [hs]; exact Bool.false_ne_true),
            if_pos hmemself, hpcur]
        · rw [upd2_ne _ _ _ _ hyx, hcell y hy x hx]
          refine (psRHS_append n t stream cur d l₁ (a, b) y x ?_ ?_).symm
          · intro _ hyp
            exact hyx ⟨congrArg Prod.fst hyp, congrArg Prod.snd hyp⟩
          · intro _ hyp
            have h1 : symCoord n y = a := congrArg Prod.fst hyp
            have h2 : symCoord n x = b := congrArg Prod.snd hyp
            refine hyx ⟨?_, ?_⟩
            · rw [← symCoord_symCoord hy, h1, ← hself.1]
            · rw [← symCoord_symCoord hx, h2, ← hself.2]
    · rw [scrambleStep_visit_pair hs hself]
      refine ⟨?_, fun y hy x hx => ?_⟩
      · dsimp only
        rw [hcount, hcur]
        omega
      · dsimp only
        have hsk : skipb n (symCoord n a, symCoord n b) = true :=
          skipb_symCoord hp1 hp2 hs hself
        by_cases hyx2 : y = symCoord n a ∧ x = symCoord n b
        · rw [hyx2.1, hyx2.2, upd2_same]
          rw [if_pos hsk, symCoord_symCoord hp1, symCoord_symCoord hp2,
            if_pos hmemself, hpcur, hdab]
        · rw [upd2_ne _ _ _ _ hyx2]
          by_cases hyx : y = a ∧ x = b
          · rw [hyx.1, hyx.2, upd2_same, hdab,
              if_neg (by rw [hs]; exact Bool.false_ne_true),
              if_pos hmemself, hpcur]
          · rw [upd2_ne _ _ _ _ hyx, hcell y hy x hx]
            refine (psRHS_append n t stream cur d l₁ (a, b) y x ?_ ?_).symm
            · intro _ hyp
              exact hyx ⟨congrArg Prod.fst hyp, congrArg Prod.snd hyp⟩
            · intro _ hyp
              have h1 : symCoord n y = a := congrArg Prod.fst hyp
              have h2 : symCoord n x = b := congrArg Prod.snd hyp
              refine hyx2 ⟨?_, ?_⟩
              · rw [← symCoord_symCoord hy, h1]
              · rw [← symCoord_symCoord hx, h2]

/-- The invariant is carried through the remainder of the fold. -/
theorem psInv_fold (n : ℕ) (t : ℝ) (stream : ℕ → ℝ) (cur : ℕ)
    (d : ℕ → ℕ → ℂ) :
    ∀ l₂ l₁ (s : (ℕ → ℕ → ℂ) × ℕ), coordList n = l₁ ++ l₂ →
      PSInv n t stream cur d l₁ s →
      PSInv n t stream cur d (coordList n)
        (List.foldl (scrambleStep n t stream) s l₂) := by
  intro l₂
  induction l₂ with
  | nil =>
    intro l₁ s hL hinv
    rw [List.foldl_nil]
    rw [List.append_nil] at hL
    rw [hL]
    exact hinv
  | cons p l₂' ih =>
    intro l₁ s hL hinv
    rw [List.foldl_cons]
    have hstep := psInv_step n t stream cur d l₁ l₂' p s hL hinv
    have hL' : coordList n = (l₁ ++ [p]) ++ l₂' := by
      rw [hL, List.append_assoc, List.singleton_append]
    exact ih (l₁ ++ [p]) _ hL' hstep

/-- Characterization of `phase_scramble`: every visited cell holds the
scrambled value built from the phase drawn at its visit, every skipped
cell holds the conjugate of its partner's scrambled value, and the
cursor advances by the number of visited cells. -/
theorem phase_scramble_spec (n : ℕ) (t : ℝ) (stream : ℕ → ℝ) (cur : ℕ)
    (d : ℕ → ℕ → ℂ) :
    (∀ y, y < n → ∀ x, x < n →
      (phase_scramble n t stream cur d).1 y x =
        if skipb n (y, x) = true then
          starRingEnd ℂ (scrambleCoeff t
            (stream (cIdx n cur (symCoord n y) (symCoord n x)))
            (d (symCoord n y) (symCoord n x)))
        else
          scrambleCoeff t (stream (cIdx n cur y x)) (d y x)) ∧
    (phase_scramble n t stream cur d).2 =
      cur + (coordList n).countP (fun q => !skipb n q) := by
  unfold phase_scramble
  have h := psInv_fold n t stream cur d (coordList n) [] (d, cur)
    (by simp) (psInv_base n t stream cur d)
  obtain ⟨hcur, hcell⟩ := h
  refine ⟨fun y hy x hx => ?_, hcur⟩
  have hc := hcell y hy x hx
  by_cases hs : skipb n (y, x) = true
  · rw [if_pos hs] at hc
    rw [if_pos (mem_coordList.mpr ⟨symCoord_lt hy, symCoord_lt hx⟩)] at hc
    rw [hc, if_pos hs]
    rfl
  · rw [if_neg hs] at hc
    rw [if_pos (mem_coordList.mpr ⟨hy, hx⟩)] at hc
    rw [hc, if_neg hs]
    rfl

/-! ## Claims C1 and C3: Hermitian symmetry and magnitude preservation -/

/-- C1 (amended): after `phase_scramble` runs on an `n × n` spectrum with
`n` a power of two, Hermitian symmetry
`spectrum[y,x] = conjugate(spectrum[(n-y) mod n, (n-x) mod n])` holds at
every coordinate pair that is not self-symmetric.  (At the self-symmetric
DC/Nyquist bins the coefficient is rewritten with a scrambled phase and
no conjugate step, so the equality can fail there; see the
counterexample.) -/
theorem claim1_hermitian_symmetry_amended (n k : ℕ) (hn : n = 2 ^ k)
    (t : ℝ) (stream : ℕ → ℝ) (cur : ℕ) (d : ℕ → ℕ → ℂ)
    (y x : ℕ) (hy : y < n) (hx : x < n)
    (hns : ¬(y = symCoord n y ∧ x = symCoord n x)) :
    (phase_scramble n t stream cur d).1 y x =
      starRingEnd ℂ
        ((phase_scramble n t stream cur d).1 (symCoord n y)
          (symCoord n x)) := by
  obtain ⟨hcell, -⟩ := phase_scramble_spec n t stream cur d
  have h1 := hcell y hy x hx
  have h2 := hcell (symCoord n y) (symCoord_lt hy) (symCoord n x)
    (symCoord_lt hx)
  by_cases hs : skipb n (y, x) = true
  · have hv : skipb n (symCoord n y, symCoord n x) = false :=
      skipb_symCoord' hy hx hs
    rw [if_pos hs] at h1
    rw [if_neg (by rw [hv]; exact Bool.false_ne_true)] at h2
    rw [h1, h2]
  · have hsf : skipb n (y, x) = false := Bool.not_eq_true _ ▸ hs
    have hv : skipb n (symCoord n y, symCoord n x) = true :=
      skipb_symCoord hy hx hsf hns
    rw [if_neg hs] at h1
    rw [if_pos hv, symCoord_symCoord hy, symCoord_symCoord hx] at h2
    rw [h1, h2, Complex.conj_conj]

/-- Witness for the amended C1 at `n = 4`, coordinate `(0, 1)` (whose
partner is `(0, 3)`). -/
theorem claim1_witness :
    (phase_scramble 4 1 (fun _ => 0) 0 (fun _ _ => 1)).1 0 1 =
      starRingEnd ℂ
        ((phase_scramble 4 1 (fun _ => 0) 0 (fun _ _ => 1)).1 0 3) :=
  claim1_hermitian_symmetry_amended 4 2 (by norm_num) 1 (fun _ => 0) 0
    (fun _ _ => 1) 0 1 (by norm_num) (by norm_num) (by decide)

/-- C1 counterexample: on the 2 × 2 all-ones spectrum with intensity 1
and drawn phase `π/2`, the bin `(0, 1)` is self-symmetric
(`(2-1) mod 2 = 1`), is rewritten to `i`, and `i ≠ conjugate(i)`: the
claimed Hermitian symmetry fails at self-symmetric bins. -/
theorem claim1_counterexample :
    ¬((phase_scramble 2 1 (fun _ => Real.pi / 2) 0 (fun _ _ => 1)).1 0 1 =
      starRingEnd ℂ
        ((phase_scramble 2 1 (fun _ => Real.pi / 2) 0
          (fun _ _ => 1)).1 0 1)) := by
  have hcell :=
    (phase_scramble_spec 2 1 (fun _ => Real.pi / 2) 0 (fun _ _ => 1)).1
  have h01 := hcell 0 (by norm_num) 1 (by norm_num)
  have hskip : skipb 2 ((0 : ℕ), (1 : ℕ)) = false := by decide
  rw [if_neg (by rw [hskip]; exact Bool.false_ne_true)] at h01
  rw [h01, scrambleCoeff_one]
  have habs : Complex.abs 1 = 1 := map_one Complex.abs
  have hexp : Complex.exp (((Real.pi / 2 : ℝ) : ℂ) * Complex.I) =
      Complex.I := by
    rw [Complex.exp_mul_I, ← Complex.ofReal_cos, ← Complex.ofReal_sin,
      Real.cos_pi_div_two, Real.sin_pi_div_two]
    simp
  rw [habs, hexp]
  simp only [Complex.ofReal_one, one_mul, Complex.conj_I]
  intro h
  have him := congrArg Complex.im h
  norm_num [Complex.I_im] at him

/-- C3: for every spectrum and every intensity in `[0, 1]`,
`phase_scramble` preserves the magnitude of every coefficient exactly
(given Hermitian-symmetric input, as produced by the pipeline); and with
intensity 1 every visited coefficient's new phase is exactly the drawn
random phase (mod `2π`): the new value is
`mag · exp(i · random_phase)`. -/
theorem claim3_magnitude_preserved (n : ℕ) (t : ℝ) (ht0 : 0 ≤ t)
    (ht1 : t ≤ 1) (stream : ℕ → ℝ) (cur : ℕ) (d : ℕ → ℕ → ℂ)
    (hH : Hermitian n d) (y x : ℕ) (hy : y < n) (hx : x < n) :
    Complex.abs ((phase_scramble n t stream cur d).1 y x) =
      Complex.abs (d y x) ∧
    (t = 1 → skipb n (y, x) = false →
      (phase_scramble n t stream cur d).1 y x =
        ((Complex.abs (d y x) : ℝ) : ℂ) *
          Complex.exp (((stream (cIdx n cur y x) : ℝ) : ℂ) *
            Complex.I)) := by
  obtain ⟨hcell, -⟩ := phase_scramble_spec n t stream cur d
  have h1 := hcell y hy x hx
  constructor
  · rw [h1]
    by_cases hs : skipb n (y, x) = true
    · rw [if_pos hs, Complex.abs_conj, abs_scrambleCoeff,
        hH y hy x hx, Complex.abs_conj]
    · rw [if_neg hs, abs_scrambleCoeff]
  · intro ht hv
    rw [h1, if_neg (by rw [hv]; exact Bool.false_ne_true), ht,
      scrambleCoeff_one]

/-- Witness for C3 at the 1 × 1 all-ones spectrum, intensity 1, constant
drawn phase 0. -/
theorem claim3_witness :
    Complex.abs ((phase_scramble 1 1 (fun _ => 0) 0 (fun _ _ => 1)).1 0 0) =
      Complex.abs (1 : ℂ) ∧
    (phase_scramble 1 1 (fun _ => 0) 0 (fun _ _ => 1)).1 0 0 =
      ((Complex.abs (1 : ℂ) : ℝ) : ℂ) *
        Complex.exp (((0 : ℝ) : ℂ) * Complex.I) := by
  have h := claim3_magnitude_preserved 1 1 (by norm_num) (by norm_num)
    (fun _ => 0) 0 (fun _ _ => 1) (fun y hy x hx => by simp) 0 0
    (by norm_num) (by norm_num)
  exact ⟨h.1, h.2 rfl (by decide)⟩

/-! ## The transform primitive: round trip and Hermitian symmetry -/

/-- Orthogonality of the discrete exponentials: summing
`exp(2πi·m·k/n)` over one period gives `n` when `n ∣ m` and `0`
otherwise. -/
theorem sum_exp_two_pi (n : ℕ) (hn : 0 < n) (m : ℤ) :
    ∑ k ∈ Finset.range n,
      Complex.exp ((2 * (Real.pi : ℂ) * m * k / n) * Complex.I) =
      if (n : ℤ) ∣ m then (n : ℂ) else 0 := by
  have hne : ((n : ℂ)) ≠ 0 := Nat.cast_ne_zero.mpr (by omega)
  have hterm : ∀ k ∈ Finset.range n,
      Complex.exp ((2 * (Real.pi : ℂ) * m * k / n) * Complex.I) =
        Complex.exp ((2 * (Real.pi : ℂ) * m / n) * Complex.I) ^ k := by
    intro k _
    rw [← Complex.exp_nat_mul]
    congr 1
    ring
  rw [Finset.sum_congr rfl hterm]
  by_cases hd : (n : ℤ) ∣ m
  · obtain ⟨c, rfl⟩ := hd
    have hbase : Complex.exp ((2 * (Real.pi : ℂ) * ((n : ℤ) * c : ℤ) / n) *
        Complex.I) = 1 := by
      have harg : ((2 * (Real.pi : ℂ) * ((n : ℤ) * c : ℤ) / n) *
          Complex.I) = (c : ℂ) * (2 * (Real.pi : ℂ) * Complex.I) := by
        push_cast
        field_simp
        ring
      rw [harg]
      exact Complex.exp_int_mul_two_pi_mul_I c
    rw [if_pos ⟨c, rfl⟩, hbase]
    simp
  · rw [if_neg hd]
    have hw1 : Complex.exp ((2 * (Real.pi : ℂ) * m / n) * Complex.I) ≠ 1 := by
      intro h1
      rw [Complex.exp_eq_one_iff] at h1
      obtain ⟨c, hc⟩ := h1
      apply hd
      have hc2 : (n : ℂ) * ((2 * (Real.pi : ℂ) * m / n) * Complex.I) =
          (n : ℂ) * ((c : ℂ) * (2 * (Real.pi : ℂ) * Complex.I)) := by
        rw [hc]
      have hl : (n : ℂ) * ((2 * (Real.pi : ℂ) * m / n) * Complex.I) =
          2 * (Real.pi : ℂ) * m * Complex.I := by
        field_simp
      have hm2 : (m : ℂ) * (2 * (Real.pi : ℂ) * Complex.I) =
          ((n : ℂ) * c) * (2 * (Real.pi : ℂ) * Complex.I) := by
        rw [hl] at hc2
        linear_combination hc2
      have hpi : ((Real.pi : ℂ)) ≠ 0 := by
        exact_mod_cast Complex.ofReal_ne_zero.mpr Real.pi_ne_zero
      have hcancel : (2 * (Real.pi : ℂ) * Complex.I) ≠ 0 :=
        mul_ne_zero (mul_ne_zero two_ne_zero hpi) Complex.I_ne_zero
      have hmnc : (m : ℂ) = (n : ℂ) * c := mul_right_cancel₀ hcancel hm2
      exact ⟨c, by exact_mod_cast hmnc⟩
    have hwn : Complex.exp ((2 * (Real.pi : ℂ) * m / n) * Complex.I) ^ n
        = 1 := by
      rw [← Complex.exp_nat_mul]
      have harg : (n : ℂ) * ((2 * (Real.pi : ℂ) * m / n) * Complex.I) =
          (m : ℂ) * (2 * (Real.pi : ℂ) * Complex.I) := by
        field_simp
        ring
      rw [harg]
      exact Complex.exp_int_mul_two_pi_mul_I m
    rw [geom_sum_eq hw1, hwn]
    simp

/-- The external 1D primitive satisfies the §6 contract:
`inverse1d(forward1d(v)) = n * v` on indices inside the buffer. -/
theorem idft1_dft1 (n : ℕ) (hn : 0 < n) (v : ℕ → ℂ) (j : ℕ) (hj : j < n) :
    idft1 n (dft1 n v) j = (n : ℂ) * v j := by
  unfold idft1 dft1
  have hstep : ∀ k ∈ Finset.range n,
      (∑ l ∈ Finset.range n, v l *
          Complex.exp (-(2 * (Real.pi : ℂ) * l * k / n) * Complex.I)) *
        Complex.exp ((2 * (Real.pi : ℂ) * k * j / n) * Complex.I) =
      ∑ l ∈ Finset.range n, v l *
        Complex.exp ((2 * (Real.pi : ℂ) * (((j : ℤ) - (l : ℤ) : ℤ) : ℂ) *
          k / n) * Complex.I) := by
    intro k _
    rw [Finset.sum_mul]
    apply Finset.sum_congr rfl
    intro l _
    rw [mul_assoc, ← Complex.exp_add]
    congr 2
    push_cast
    ring
  rw [Finset.sum_congr rfl hstep, Finset.sum_comm]
  have hfac : ∀ l ∈ Finset.range n,
      (∑ k ∈ Finset.range n, v l *
        Complex.exp ((2 * (Real.pi : ℂ) * (((j : ℤ) - (l : ℤ) : ℤ) : ℂ) *
          k / n) * Complex.I)) =
      v l * (if (n : ℤ) ∣ ((j : ℤ) - (l : ℤ)) then (n : ℂ) else 0) := by
    intro l _
    rw [← Finset.mul_sum, sum_exp_two_pi n hn ((j : ℤ) - (l : ℤ))]
  rw [Finset.sum_congr rfl hfac]
  have hsingle : (∑ l ∈ Finset.range n, v l *
      (if (n : ℤ) ∣ ((j : ℤ) - (l : ℤ)) then (n : ℂ) else 0)) =
      v j * (if (n : ℤ) ∣ ((j : ℤ) - (j : ℤ)) then (n : ℂ) else 0) := by
    apply Finset.sum_eq_single j
    · intro l hl hne
      rw [if_neg, mul_zero]
      intro hdvd
      have hl' : l < n := Finset.mem_range.mp hl
      have habs : ((j : ℤ) - l).natAbs < n := by omega
      have hzero : ((j : ℤ) - l).natAbs ≠ 0 := by omega
      have hdvd' : (n : ℕ) ∣ ((j : ℤ) - l).natAbs := by
        rw [← Int.natAbs_ofNat n] at hdvd ⊢
        exact Int.natAbs_dvd_natAbs.mpr (by simpa using hdvd)
      have := Nat.le_of_dvd (by omega) hdvd'
      omega
    · intro hj'
      exact absurd (Finset.mem_range.mpr hj) hj'
  rw [hsingle, if_pos (by simp), mul_comm]

/-- A 1D transform depends only on the buffer's first `n` entries. -/
theorem dft1_congr (n : ℕ) (v w : ℕ → ℂ) (h : ∀ j, j < n → v j = w j)
    (k : ℕ) : dft1 n v k = dft1 n w k :=
  Finset.sum_congr rfl fun j hj => by rw [h j (Finset.mem_range.mp hj)]

/-- A 1D inverse transform depends only on the buffer's first `n`
entries. -/
theorem idft1_congr (n : ℕ) (v w : ℕ → ℂ) (h : ∀ j, j < n → v j = w j)
    (k : ℕ) : idft1 n v k = idft1 n w k :=
  Finset.sum_congr rfl fun j hj => by rw [h j (Finset.mem_range.mp hj)]

/-- Row transforms and column transforms act on different axes and
commute. -/
theorem transform_comm (n : ℕ) (z : ℕ → ℕ → ℂ) (y x : ℕ) :
    transform_rows (idft1 n) (transform_cols (dft1 n) z) y x =
      transform_cols (dft1 n) (transform_rows (idft1 n) z) y x := by
  unfold transform_rows transform_cols idft1 dft1
  simp only [Finset.sum_mul]
  rw [Finset.sum_comm]
  apply Finset.sum_congr rfl
  intro y' _
  apply Finset.sum_congr rfl
  intro j _
  ring

/-- Round trip of the 2D pipeline: `ifft2d` after `fft2d` restores every
in-range cell exactly (the `1/(n·n)` scaling matching the unnormalized
primitive). -/
theorem ifft2dCore_fft2dCore (n : ℕ) (hn : 0 < n) (z : ℕ → ℕ → ℂ)
    (y x : ℕ) (hy : y < n) (hx : x < n) :
    ifft2dCore n (fft2dCore n z) y x = z y x := by
  unfold ifft2dCore fft2dCore
  have hcomm : transform_rows (idft1 n)
      (transform_cols (dft1 n) (transform_rows (dft1 n) z)) =
      transform_cols (dft1 n)
        (transform_rows (idft1 n) (transform_rows (dft1 n) z)) := by
    funext a b
    exact transform_comm n (transform_rows (dft1 n) z) a b
  rw [hcomm]
  have hcol : transform_cols (idft1 n) (transform_cols (dft1 n)
      (transform_rows (idft1 n) (transform_rows (dft1 n) z))) y x =
      (n : ℂ) * (transform_rows (idft1 n) (transform_rows (dft1 n) z)) y
        x := by
    unfold transform_cols
    exact idft1_dft1 n hn
      (fun y' => transform_rows (idft1 n) (transform_rows (dft1 n) z) y' x)
      y hy
  rw [hcol]
  have hrow : transform_rows (idft1 n) (transform_rows (dft1 n) z) y x =
      (n : ℂ) * z y x := by
    unfold transform_rows
    exact idft1_dft1 n hn (z y) x hx
  rw [hrow]
  have hne : ((n : ℂ)) ≠ 0 := Nat.cast_ne_zero.mpr (by omega)
  push_cast
  field_simp
  ring

/-- Reflecting an index modulo `n` negates the discrete exponential's
argument: `exp(2πi·j·((n-x) mod n)/n) = exp(-2πi·j·x/n)`. -/
theorem exp_symCoord (n j x : ℕ) (hx : x < n) :
    Complex.exp ((2 * (Real.pi : ℂ) * j * (symCoord n x) / n) *
      Complex.I) =
      Complex.exp (-(2 * (Real.pi : ℂ) * j * x / n) * Complex.I) := by
  rcases eq_or_ne x 0 with rfl | hx0
  · simp [symCoord]
  · have hn : 0 < n := lt_of_le_of_lt (Nat.zero_le x) hx
    have hne : ((n : ℂ)) ≠ 0 := Nat.cast_ne_zero.mpr (by omega)
    have hsym : symCoord n x = n - x := by rw [symCoord, if_neg hx0]
    rw [hsym]
    have hcast : ((n - x : ℕ) : ℂ) = (n : ℂ) - (x : ℂ) := by
      push_cast [Nat.cast_sub (le_of_lt hx)]
      ring
    have hsplit : (2 * (Real.pi : ℂ) * j * ((n - x : ℕ) : ℂ) / n) *
        Complex.I =
        (j : ℂ) * (2 * (Real.pi : ℂ) * Complex.I) +
          (-(2 * (Real.pi : ℂ) * j * x / n) * Complex.I) := by
      rw [hcast]
      field_simp
      ring
    rw [hsplit, Complex.exp_add]
    have h1 : Complex.exp ((j : ℂ) * (2 * (Real.pi : ℂ) * Complex.I)) =
        1 := by
      exact_mod_cast Complex.exp_int_mul_two_pi_mul_I (j : ℤ)
    rw [h1, one_mul]

/-- Conjugating the discrete exponential at the reflected index yields
the exponential at the original index. -/
theorem conj_exp_sym (n j x : ℕ) (hx : x < n) :
    starRingEnd ℂ (Complex.exp (-(2 * (Real.pi : ℂ) * j *
        (symCoord n x) / n) * Complex.I)) =
      Complex.exp (-(2 * (Real.pi : ℂ) * j * x / n) * Complex.I) := by
  have hA : starRingEnd ℂ (2 * (Real.pi : ℂ) * j * (symCoord n x) / n) =
      2 * (Real.pi : ℂ) * j * (symCoord n x) / n := by
    simp [map_div₀, map_mul, Complex.conj_ofReal, map_ofNat]
  rw [← Complex.exp_conj, map_mul, map_neg, hA, Complex.conj_I]
  rw [show -(2 * (Real.pi : ℂ) * j * (symCoord n x) / n) * -Complex.I =
      (2 * (Real.pi : ℂ) * j * (symCoord n x) / n) * Complex.I by ring]
  exact exp_symCoord n j x hx

/-- The forward 2D transform of a real plane is Hermitian symmetric:
this is the invariant the phase scrambler's pair enumeration relies on. -/
theorem hermitian_fft2dCore (n : ℕ) (g : ℕ → ℕ → ℝ) :
    Hermitian n (fft2dCore n (to_complex g)) := by
  intro y hy x hx
  unfold fft2dCore transform_cols transform_rows dft1 to_complex
  rw [map_sum]
  apply Finset.sum_congr rfl
  intro y' _
  rw [map_mul, map_sum]
  congr 1
  · apply Finset.sum_congr rfl
    intro x' _
    rw [map_mul, Complex.conj_ofReal]
    congr 1
    exact (conj_exp_sym n x' x hx).symm
  · exact (conj_exp_sym n y' y hy).symm

/-- The 2D inverse transform depends only on the in-range cells of its
input. -/
theorem ifft2dCore_congr (n : ℕ) (w w' : ℕ → ℕ → ℂ)
    (h : ∀ y, y < n → ∀ x, x < n → w y x = w' y x) (y x : ℕ) :
    ifft2dCore n w y x = ifft2dCore n w' y x := by
  unfold ifft2dCore transform_cols transform_rows
  exact congrArg (fun z => (((n * n : ℕ) : ℂ))⁻¹ * z)
    (idft1_congr n _ _
      (fun y' hy' => idft1_congr n (w y') (w' y')
        (fun x' hx' => h y' hy' x' hx') x) y)

/-- When the plan length equals the buffer length, the chunked
application is a single full-length transform: the first chunk covers
the whole buffer. -/
theorem chunkedApply_self (n : ℕ) (T : (ℕ → ℂ) → ℕ → ℂ) (v : ℕ → ℂ)
    (i : ℕ) (hi : i < n) : chunkedApply n T v i = T v i := by
  unfold chunkedApply
  rw [Nat.div_eq_of_lt hi, Nat.mod_eq_of_lt hi]
  congr 1
  funext j
  rw [Nat.zero_mul, Nat.zero_add]

/-- On the meaningful domain, the chunked forward transform with a plan
of exactly the buffer side is the intended full-size transform. -/
theorem fft2dChunked_eq_core (n : ℕ) (d : ℕ → ℕ → ℂ) (y x : ℕ)
    (hy : y < n) (hx : x < n) :
    fft2dChunked n d y x = fft2dCore n d y x := by
  unfold fft2dChunked fft2dCore transform_cols transform_rows
  rw [chunkedApply_self n _ _ y hy]
  exact dft1_congr n _ _ (fun y' _ => chunkedApply_self n _ _ x hx) y

/-- On the meaningful domain, the chunked inverse transform with a plan
of exactly the buffer side is the intended full-size inverse
transform. -/
theorem ifft2dChunked_eq_core (n : ℕ) (d : ℕ → ℕ → ℂ) (y x : ℕ)
    (hy : y < n) (hx : x < n) :
    ifft2dChunked n n d y x = ifft2dCore n d y x := by
  unfold ifft2dChunked ifft2dCore transform_cols transform_rows
  congr 1
  rw [chunkedApply_self n _ _ y hy]
  exact idft1_congr n _ _ (fun y' _ => chunkedApply_self n _ _ x hx) y

/-- Hermitian symmetry only mentions in-range cells, so it transfers
along in-range agreement. -/
theorem hermitian_of_eqOn (n : ℕ) (f g : ℕ → ℕ → ℂ)
    (h : ∀ y, y < n → ∀ x, x < n → g y x = f y x)
    (hf : Hermitian n f) : Hermitian n g := by
  intro y hy x hx
  rw [h y hy x hx, h _ (symCoord_lt hy) _ (symCoord_lt hx)]
  exact hf y hy x hx

/-! ## Pipeline lemmas -/

/-- Every padding mode preserves the original plane in the top-left
corner. -/
theorem apply_padding_topLeft (mode : PaddingMode) (ch : ℕ → ℕ → ℝ)
    (h w : ℕ) (P : ℕ → ℕ → ℝ)
    (hp : apply_padding mode ch h w = some P) :
    ∀ y, y < h → ∀ x, x < w → P y x = ch y x := by
  intro y hy x hx
  cases mode with
  | Zero =>
    simp only [apply_padding] at hp
    rw [← Option.some.inj hp]
    simp [hy, hx]
  | Reflect =>
    simp only [apply_padding] at hp
    split at hp
    · rw [← Option.some.inj hp]
      simp [reflectVal, reflectRowVal, hy, hx]
    · cases hp
  | Wrap =>
    simp only [apply_padding] at hp
    split at hp
    · cases hp
    · rw [← Option.some.inj hp]
      have hh : 0 < h := by omega
      have hw : 0 < w := by omega
      simp [Nat.mod_eq_of_lt hy, Nat.mod_eq_of_lt hx]

/-- Decomposition of a successful `process_channel` run into its stages;
a successful run forces the plan length to divide the per-call padded
size (rustfft panics otherwise), and the spectra are the chunked values
the fixed-size plans actually compute. -/
theorem process_channel_eq_some (S : FourierScrambler) (h w : ℕ)
    (ch : ℕ → ℕ → ℝ) (cur : ℕ) (res : (ℕ → ℕ → ℝ) × ℕ)
    (hrun : process_channel S h w ch cur = some res) :
    ∃ P, apply_padding S.options.padding_mode ch h w = some P ∧
      get_optimal_fft_size (max w h) % S.planSize = 0 ∧
      ∃ scr : (ℕ → ℕ → ℂ) × ℕ,
        scr = (if S.options.phase_scramble then
            phase_scramble (get_optimal_fft_size (max w h))
              S.options.intensity S.stream cur
              (fft2dChunked S.planSize (to_complex P))
          else
            (fft2dChunked S.planSize (to_complex P), cur)) ∧
        res = (fun y x => clamp01 (remove_padding
          (ifft2dChunked S.planSize (get_optimal_fft_size (max w h))
            scr.1) y x),
          scr.2) := by
  simp only [process_channel] at hrun
  rcases Option.bind_eq_some.mp hrun with ⟨P, hpad, hrun1⟩
  rcases Option.bind_eq_some.mp hrun1 with ⟨freq, hfft, hrun2⟩
  simp only [fft2d] at hfft
  split at hfft
  case isTrue hplan =>
    have hfreq : freq = fft2dChunked S.planSize (to_complex P) :=
      (Option.some.inj hfft).symm
    rcases Option.map_eq_some'.mp hrun2 with ⟨spatial, hifft, hres⟩
    simp only [ifft2d] at hifft
    split at hifft
    case isTrue =>
      have hspatial := (Option.some.inj hifft).symm
      subst hfreq
      refine ⟨P, hpad, hplan, _, rfl, ?_⟩
      rw [← hres, hspatial]
    case isFalse hc => exact absurd hplan hc
  case isFalse => cases hfft

/-- A `process_channel` call whose plan length does not divide the
per-call padded size panics inside the transform primitive and aborts
(never returns). -/
theorem process_channel_none (S : FourierScrambler) (h w : ℕ)
    (ch : ℕ → ℕ → ℝ) (cur : ℕ)
    (hplan : get_optimal_fft_size (max w h) % S.planSize ≠ 0) :
    process_channel S h w ch cur = none := by
  simp only [process_channel]
  cases hpad : apply_padding S.options.padding_mode ch h w with
  | none => rfl
  | some P =>
    simp only [Option.some_bind, fft2d, if_neg hplan, Option.none_bind]

/-- When the plan length divides the padded size (in particular when
they are equal) and padding is `Zero`, `process_channel` returns
normally. -/
theorem process_channel_isSome (S : FourierScrambler) (h w : ℕ)
    (ch : ℕ → ℕ → ℝ) (cur : ℕ)
    (hplan : get_optimal_fft_size (max w h) % S.planSize = 0)
    (hmode : S.options.padding_mode = PaddingMode.Zero) :
    ∃ res, process_channel S h w ch cur = some res := by
  rw [← Option.isSome_iff_exists]
  simp only [process_channel, hmode, apply_padding, Option.some_bind,
    fft2d, ifft2d, if_pos hplan, Option.map_some']
  rfl

/-- A `scramble` call whose plan length does not divide the required
padded size panics inside the transform primitive and aborts (no error
value is produced; the call never returns). -/
theorem scramble_none_of_plan_mismatch (S : FourierScrambler)
    (img : Image) (cur : ℕ)
    (hplan : get_optimal_fft_size (max img.width img.height) %
      S.planSize ≠ 0) :
    scramble S img cur = none := by
  unfold scramble
  rw [process_channel_none S img.height img.width _ cur hplan,
    Option.none_bind]

/-- When the plan length divides the required padded size and padding is
`Zero`, `scramble` returns normally (with chunked, invalid results
whenever the sizes differ). -/
theorem scramble_isSome (S : FourierScrambler) (img : Image) (cur : ℕ)
    (hplan : get_optimal_fft_size (max img.width img.height) %
      S.planSize = 0)
    (hmode : S.options.padding_mode = PaddingMode.Zero) :
    ∃ res, scramble S img cur = some res := by
  rw [← Option.isSome_iff_exists]
  unfold scramble
  obtain ⟨r0, h0⟩ :=
    process_channel_isSome S img.height img.width (splitChannel img 0)
      cur hplan hmode
  rw [h0, Option.some_bind]
  obtain ⟨r1, h1⟩ :=
    process_channel_isSome S img.height img.width (splitChannel img 1)
      r0.2 hplan hmode
  rw [h1, Option.some_bind]
  obtain ⟨r2, h2⟩ :=
    process_channel_isSome S img.height img.width (splitChannel img 2)
      r1.2 hplan hmode
  rw [h2, Option.map_some']
  rfl

/-- At intensity `0` the phase scrambler is the identity on a
Hermitian-symmetric spectrum (exactly, in the real-number model). -/
theorem phase_scramble_zero_hermitian (n : ℕ) (stream : ℕ → ℝ) (c0 : ℕ)
    (d : ℕ → ℕ → ℂ) (hH : Hermitian n d) :
    ∀ y, y < n → ∀ x, x < n →
      (phase_scramble n 0 stream c0 d).1 y x = d y x := by
  intro y hy x hx
  obtain ⟨hcell, -⟩ := phase_scramble_spec n 0 stream c0 d
  rw [hcell y hy x hx]
  by_cases hs : skipb n (y, x) = true
  · rw [if_pos hs, scrambleCoeff_zero]
    exact (hH y hy x hx).symm
  · rw [if_neg hs, scrambleCoeff_zero]

/-- At intensity `0`, a successful `process_channel` run reproduces the
channel exactly on its original domain. -/
theorem process_channel_identity (S : FourierScrambler)
    (hI : S.options.intensity = 0)
    (h w : ℕ)
    (hplan : get_optimal_fft_size (max w h) = S.planSize)
    (ch : ℕ → ℕ → ℝ)
    (hch : ∀ y, y < h → ∀ x, x < w → 0 ≤ ch y x ∧ ch y x ≤ 1)
    (cur : ℕ) (res : (ℕ → ℕ → ℝ) × ℕ)
    (hrun : process_channel S h w ch cur = some res) :
    ∀ y, y < h → ∀ x, x < w → res.1 y x = ch y x := by
  obtain ⟨P, hpad, -, scr, hscr, hres⟩ :=
    process_channel_eq_some S h w ch cur res hrun
  rw [← hplan] at hscr hres
  have hn : 0 < get_optimal_fft_size (max w h) :=
    get_optimal_fft_size_pos _
  have hwn : w ≤ get_optimal_fft_size (max w h) :=
    le_trans (le_max_left w h) (get_optimal_fft_size_ge _)
  have hhn : h ≤ get_optimal_fft_size (max w h) :=
    le_trans (le_max_right w h) (get_optimal_fft_size_ge _)
  have hchunk : ∀ y, y < get_optimal_fft_size (max w h) →
      ∀ x, x < get_optimal_fft_size (max w h) →
      fft2dChunked (get_optimal_fft_size (max w h)) (to_complex P) y x =
        fft2dCore (get_optimal_fft_size (max w h)) (to_complex P) y x :=
    fun y hy x hx => fft2dChunked_eq_core _ (to_complex P) y x hy hx
  have hherm : Hermitian (get_optimal_fft_size (max w h))
      (fft2dChunked (get_optimal_fft_size (max w h)) (to_complex P)) :=
    hermitian_of_eqOn _ _ _ hchunk (hermitian_fft2dCore _ P)
  have hscr1 : ∀ y, y < get_optimal_fft_size (max w h) →
      ∀ x, x < get_optimal_fft_size (max w h) →
      scr.1 y x = fft2dCore (get_optimal_fft_size (max w h))
        (to_complex P) y x := by
    intro y hy x hx
    rw [hscr]
    by_cases hps : S.options.phase_scramble = true
    · rw [if_pos hps]
      rw [hI]
      rw [phase_scramble_zero_hermitian _ S.stream cur _ hherm y hy x hx]
      exact hchunk y hy x hx
    · rw [if_neg hps]
      exact hchunk y hy x hx
  intro y hy x hx
  rw [hres]
  dsimp only
  have hspatial : ifft2dChunked (get_optimal_fft_size (max w h))
      (get_optimal_fft_size (max w h)) scr.1 y x = to_complex P y x := by
    rw [ifft2dChunked_eq_core _ scr.1 y x (lt_of_lt_of_le hy hhn)
      (lt_of_lt_of_le hx hwn)]
    rw [ifft2dCore_congr _ scr.1 _ hscr1 y x]
    exact ifft2dCore_fft2dCore _ hn (to_complex P) y x
      (lt_of_lt_of_le hy hhn) (lt_of_lt_of_le hx hwn)
  unfold remove_padding
  rw [hspatial]
  unfold to_complex
  rw [Complex.ofReal_re,
    apply_padding_topLeft _ _ _ _ _ hpad y hy x hx]
  obtain ⟨h0, h1⟩ := hch y hy x hx
  unfold clamp01
  rw [max_eq_left h0, min_eq_left h1]

/-- The saturating cast inverts the `/255` normalization exactly on
8-bit values. -/
theorem asU8_nat (p : ℕ) (hp : p ≤ 255) :
    asU8 ((p : ℝ) / 255 * 255) = p := by
  have h255 : ((p : ℝ) / 255) * 255 = (p : ℝ) := by
    field_simp
  rw [h255]
  unfold asU8
  rw [Int.floor_natCast, min_eq_right (by exact_mod_cast hp)]
  simp

/-- Channel values of an 8-bit image are normalized into `[0, 1]`. -/
theorem splitChannel_bounds (img : Image)
    (hpix : ∀ x y (c : Fin 3), img.pix x y c ≤ 255) (c : Fin 3) :
    ∀ y, y < img.height → ∀ x, x < img.width →
      0 ≤ splitChannel img c y x ∧ splitChannel img c y x ≤ 1 := by
  intro y _ x _
  unfold splitChannel
  constructor
  · positivity
  · rw [div_le_one (by norm_num)]
    exact_mod_cast hpix x y c

/-- Output pixel of `combine_channels`, red channel. -/
theorem combinePix_zero (a b c2 : ℕ → ℕ → ℝ) (x y : ℕ) (c : Fin 3)
    (hc : c.val = 0) : combinePix a b c2 x y c = asU8 (a y x * 255) := by
  unfold combinePix
  rw [if_pos hc]

/-- Output pixel of `combine_channels`, green channel. -/
theorem combinePix_one (a b c2 : ℕ → ℕ → ℝ) (x y : ℕ) (c : Fin 3)
    (hc : c.val = 1) : combinePix a b c2 x y c = asU8 (b y x * 255) := by
  unfold combinePix
  rw [if_neg (by omega), if_pos hc]

/-- Output pixel of `combine_channels`, blue channel. -/
theorem combinePix_two (a b c2 : ℕ → ℕ → ℝ) (x y : ℕ) (c : Fin 3)
    (hc : c.val = 2) : combinePix a b c2 x y c = asU8 (c2 y x * 255) := by
  unfold combinePix
  rw [if_neg (by omega), if_neg (by omega)]

/-! ## Claim C2: identity at zero intensity -/

/-- C2: with phase scrambling enabled and intensity `0`, the phase delta
applied to every coefficient is zero, so `phase_scramble` leaves the
(Hermitian-symmetric, as always holds in the pipeline) spectrum
identical to its input; consequently a successful size-matched
`scramble` run (the plan size equal to the image's required padded
size, i.e. the well-formed runs §9 of the spec carves out) reproduces
the input image exactly (so certainly within one 8-bit quantization
level), for any image and any random stream. -/
theorem claim2_identity_at_zero_intensity (S : FourierScrambler)
    (hI : S.options.intensity = 0) (hP : S.options.phase_scramble = true)
    (img : Image) (cur : ℕ)
    (hplan : get_optimal_fft_size (max img.width img.height) =
      S.planSize)
    (hpix : ∀ x y (c : Fin 3), img.pix x y c ≤ 255)
    (out : Image) (cur' : ℕ)
    (hrun : scramble S img cur = some (out, cur')) :
    (∀ (n : ℕ) (stream : ℕ → ℝ) (c0 : ℕ) (d : ℕ → ℕ → ℂ),
      Hermitian n d → ∀ y, y < n → ∀ x, x < n →
        (phase_scramble n 0 stream c0 d).1 y x = d y x) ∧
    ∀ x, x < img.width → ∀ y, y < img.height → ∀ c : Fin 3,
      out.pix x y c = img.pix x y c := by
  refine ⟨phase_scramble_zero_hermitian, ?_⟩
  unfold scramble at hrun
  rcases Option.bind_eq_some.mp hrun with ⟨p0, hp0, hrun1⟩
  rcases Option.bind_eq_some.mp hrun1 with ⟨p1, hp1, hrun2⟩
  rcases Option.map_eq_some'.mp hrun2 with ⟨p2, hp2, hres⟩
  have hout : ({ width := img.width, height := img.height,
                 pix := combinePix p0.1 p1.1 p2.1 } : Image) = out :=
    congrArg Prod.fst hres
  intro x hx y hy c
  rw [← hout]
  show combinePix p0.1 p1.1 p2.1 x y c = img.pix x y c
  have hch0 := process_channel_identity S hI img.height img.width hplan
    _ (splitChannel_bounds img hpix 0) cur p0 hp0 y hy x hx
  have hch1 := process_channel_identity S hI img.height img.width hplan
    _ (splitChannel_bounds img hpix 1) p0.2 p1 hp1 y hy x hx
  have hch2 := process_channel_identity S hI img.height img.width hplan
    _ (splitChannel_bounds img hpix 2) p1.2 p2 hp2 y hy x hx
  rcases c with ⟨cv, hcv⟩
  interval_cases cv
  · rw [combinePix_zero _ _ _ x y _ rfl, hch0]
    unfold splitChannel
    exact asU8_nat _ (hpix x y _)
  · rw [combinePix_one _ _ _ x y _ rfl, hch1]
    unfold splitChannel
    exact asU8_nat _ (hpix x y _)
  · rw [combinePix_two _ _ _ x y _ rfl, hch2]
    unfold splitChannel
    exact asU8_nat _ (hpix x y _)

/-- Witness for C2: a freshly constructed scrambler at intensity 0 on a
1 × 1 black image reproduces the image. -/
theorem claim2_witness :
    ∃ res : Image × ℕ,
      scramble (FourierScrambler.new 1 1
        { phase_scramble := true, intensity := 0,
          padding_mode := PaddingMode.Zero } (fun _ => 0))
        { width := 1, height := 1, pix := fun _ _ _ => 0 } 0 =
          some res ∧
      res.1.pix 0 0 0 = 0 := by
  obtain ⟨res, hres⟩ := scramble_isSome
    (FourierScrambler.new 1 1
      { phase_scramble := true, intensity := 0,
        padding_mode := PaddingMode.Zero } (fun _ => 0))
    { width := 1, height := 1, pix := fun _ _ _ => 0 } 0 (by decide) rfl
  refine ⟨res, hres, ?_⟩
  have h := claim2_identity_at_zero_intensity
    (FourierScrambler.new 1 1
      { phase_scramble := true, intensity := 0,
        padding_mode := PaddingMode.Zero } (fun _ => 0))
    rfl rfl
    { width := 1, height := 1, pix := fun _ _ _ => 0 } 0 rfl
    (fun _ _ _ => Nat.zero_le _) res.1 res.2 hres
  exact h.2 0 (by norm_num) 0 (by norm_num) 0

/-! ## Claim C4: padding round trip in Zero mode -/

/-- C4: for every plane of positive dimensions, `Zero`-mode padding
followed by `remove_padding` at the original dimensions returns the
original plane exactly: unpad extracts the top-left real part and
discards the remainder unconditionally. -/
theorem claim4_zero_padding_roundtrip (ch : ℕ → ℕ → ℝ) (h w : ℕ)
    (hh : 0 < h) (hw : 0 < w) :
    ∃ P, apply_padding PaddingMode.Zero ch h w = some P ∧
      ∀ y, y < h → ∀ x, x < w →
        remove_padding (to_complex P) y x = ch y x := by
  refine ⟨_, rfl, ?_⟩
  intro y hy x hx
  unfold remove_padding to_complex
  rw [Complex.ofReal_re]
  simp [hy, hx]

/-- Witness for C4 on a 1 × 1 plane. -/
theorem claim4_witness :
    ∃ P, apply_padding PaddingMode.Zero (fun _ _ => (0 : ℝ)) 1 1 =
        some P ∧
      remove_padding (to_complex P) 0 0 = 0 := by
  obtain ⟨P, hP, hval⟩ := claim4_zero_padding_roundtrip
    (fun _ _ => (0 : ℝ)) 1 1 (by norm_num) (by norm_num)
  exact ⟨P, hP, hval 0 (by norm_num) 0 (by norm_num)⟩

/-! ## Claim C5: Reflect-mode geometry -/

/-- C5 (amended): `apply_padding` performs no geometry check and returns
no error: in `Reflect` mode, when `padded_size > 2*width` or
`padded_size > 2*height` a mirror index underflows and the call panics
(modelled by `none`); when `padded_size ≤ 2*width` and
`padded_size ≤ 2*height` (in particular under the claimed strict
precondition) every mirror index access is in bounds and the call
returns a padded plane. -/
theorem claim5_reflect_geometry (ch : ℕ → ℕ → ℝ) (h w : ℕ) :
    (2 * w < get_optimal_fft_size (max w h) ∨
        2 * h < get_optimal_fft_size (max w h) →
      apply_padding PaddingMode.Reflect ch h w = none) ∧
    (get_optimal_fft_size (max w h) ≤ 2 * w →
      get_optimal_fft_size (max w h) ≤ 2 * h →
      (apply_padding PaddingMode.Reflect ch h w).isSome = true) := by
  have hpos : 0 < get_optimal_fft_size (max w h) :=
    get_optimal_fft_size_pos _
  constructor
  · intro hbad
    have hnotall : ¬(∀ y < get_optimal_fft_size (max w h),
        ∀ x < get_optimal_fft_size (max w h),
        (reflectVal ch h w y x).isSome = true) := by
      rcases hbad with hb | hb
      · have hnone : reflectVal ch h w 0 (2 * w) = none := by
          rcases Nat.eq_zero_or_pos h with hh | hh
          · rw [reflectVal, if_neg (by omega), if_neg (by omega)]
          · rw [reflectVal, if_pos hh, reflectRowVal,
              if_neg (by omega), if_neg (by omega)]
        intro hall
        have hcell := hall 0 hpos (2 * w) (by omega)
        rw [hnone] at hcell
        simp at hcell
      · have hnone : reflectVal ch h w (2 * h) 0 = none := by
          rw [reflectVal, if_neg (by omega), if_neg (by omega)]
        intro hall
        have hcell := hall (2 * h) (by omega) 0 hpos
        rw [hnone] at hcell
        simp at hcell
    simp only [apply_padding]
    rw [if_neg hnotall]
  · intro hw2 hh2
    have hall : ∀ y < get_optimal_fft_size (max w h),
        ∀ x < get_optimal_fft_size (max w h),
        (reflectVal ch h w y x).isSome = true := by
      intro y hy x hx
      rcases Nat.lt_or_ge y h with hyh | hyh
      · rw [reflectVal, if_pos hyh]
        rcases Nat.lt_or_ge x w with hxw | hxw
        · rw [reflectRowVal, if_pos hxw]
          rfl
        · rw [reflectRowVal, if_neg (by omega), if_pos (by omega)]
          rfl
      · rw [reflectVal, if_neg (by omega), if_pos (by omega)]
        rcases Nat.lt_or_ge x w with hxw | hxw
        · rw [reflectRowVal, if_pos hxw]
          rfl
        · rw [reflectRowVal, if_neg (by omega), if_pos (by omega)]
          rfl
    simp only [apply_padding]
    rw [if_pos hall]
    rfl

/-- Witness for the amended C5 on a 1 × 1 plane (padded size 1 ≤ 2·1). -/
theorem claim5_witness :
    (apply_padding PaddingMode.Reflect (fun _ _ => (0 : ℝ)) 1 1).isSome =
      true :=
  (claim5_reflect_geometry (fun _ _ => (0 : ℝ)) 1 1).2 (by decide)
    (by decide)

/-- C5 counterexample: for a 3 × 2 plane the padded size is 4, which
satisfies the claim's failure trigger `padded_size ≥ 2*width`
(4 ≥ 2·2), yet the call does not fail at all — it returns a padded
plane, because the largest mirror argument `2*width - x - 1` stays in
bounds whenever `padded_size ≤ 2*width`.  No `UnsupportedPaddingGeometry`
error exists in the code. -/
theorem claim5_counterexample :
    2 * 2 ≤ get_optimal_fft_size (max 2 3) ∧
    (apply_padding PaddingMode.Reflect (fun _ _ => (0 : ℝ)) 3 2).isSome =
      true := by
  constructor
  · decide
  · decide

/-! ## Claim C6: reuse with a different padded size -/

/-- C6 (amended): `scramble` performs no size check and never returns a
`TransformSizeMismatch` error.  Both padded sizes are powers of two, so
a mismatch falls into one of two behaviours, neither of which is an
error report: when the required padded size is not a multiple of the
plan size (the plan was built larger), the unchecked call panics inside
the transform primitive and aborts (`none`); when the plan size divides
the required padded size — every mismatch where the plan was built
smaller, and the matched case — the call completes normally (`Zero`
padding), computing chunked transforms whose results are invalid for
the intended full-size transform exactly as §9 of the spec concedes. -/
theorem claim6_no_size_check (w0 h0 : ℕ) (opts : FourierOptions)
    (stream : ℕ → ℝ) (img : Image) (cur : ℕ) :
    (get_optimal_fft_size (max img.width img.height) %
        get_optimal_fft_size (max w0 h0) ≠ 0 →
      scramble (FourierScrambler.new w0 h0 opts stream) img cur = none) ∧
    (get_optimal_fft_size (max img.width img.height) %
        get_optimal_fft_size (max w0 h0) = 0 →
      opts.padding_mode = PaddingMode.Zero →
      ∃ res, scramble (FourierScrambler.new w0 h0 opts stream) img cur =
        some res) := by
  constructor
  · intro hne
    exact scramble_none_of_plan_mismatch _ img cur hne
  · intro hdvd hmode
    exact scramble_isSome _ img cur hdvd hmode

/-- Witness for the amended C6, exercising both directions: a plan
built for a 5 × 5 image (plan size 8) fed a 3 × 3 image (padded size 4,
and 4 % 8 ≠ 0) aborts, while a plan built for a 3 × 3 image (plan size
4) fed a 6 × 6 image (padded size 8, and 8 % 4 = 0) completes normally
despite the mismatch. -/
theorem claim6_witness :
    scramble (FourierScrambler.new 5 5
      { phase_scramble := false, intensity := 1,
        padding_mode := PaddingMode.Zero } (fun _ => 0))
      { width := 3, height := 3, pix := fun _ _ _ => 0 } 0 = none ∧
    ∃ res, scramble (FourierScrambler.new 3 3
      { phase_scramble := false, intensity := 1,
        padding_mode := PaddingMode.Zero } (fun _ => 0))
      { width := 6, height := 6, pix := fun _ _ _ => 0 } 0 = some res :=
  ⟨(claim6_no_size_check 5 5
      { phase_scramble := false, intensity := 1,
        padding_mode := PaddingMode.Zero } (fun _ => 0)
      { width := 3, height := 3, pix := fun _ _ _ => 0 } 0).1
    (by decide),
   (claim6_no_size_check 3 3
      { phase_scramble := false, intensity := 1,
        padding_mode := PaddingMode.Zero } (fun _ => 0)
      { width := 6, height := 6, pix := fun _ _ _ => 0 } 0).2
    (by decide) rfl⟩

/-- C6 counterexample: a scrambler built for a 1 × 1 image (plan size 1)
fed a 2 × 2 image (required padded size 2) is a size mismatch, yet the
call completes normally: the plan length divides every row, so the
transform primitive computes chunked size-1 transforms and `scramble`
returns a (for the intended size-2 transform, invalid) result — it does
not fail with a `TransformSizeMismatch` (or any) error. -/
theorem claim6_counterexample :
    get_optimal_fft_size (max 2 2) ≠
      (FourierScrambler.new 1 1
        { phase_scramble := false, intensity := 1,
          padding_mode := PaddingMode.Zero } (fun _ => 0)).planSize ∧
    ∃ res, scramble (FourierScrambler.new 1 1
      { phase_scramble := false, intensity := 1,
        padding_mode := PaddingMode.Zero } (fun _ => 0))
      { width := 2, height := 2, pix := fun _ _ _ => 0 } 0 =
        some res := by
  constructor
  · decide
  · exact scramble_isSome _ _ 0 (by decide) rfl

/-! ## Claim C8: output range and truncation -/

/-- The saturating cast of a clamped, rescaled channel value is its
floor, and lies in `[0, 255]`. -/
theorem asU8_of_clamped (v : ℝ) (h0 : 0 ≤ v) (h1 : v ≤ 1) :
    asU8 (v * 255) ≤ 255 ∧ ((asU8 (v * 255) : ℤ)) = ⌊v * 255⌋ := by
  unfold asU8
  have hf0 : 0 ≤ ⌊v * 255⌋ := Int.floor_nonneg.mpr (by positivity)
  have hf1 : ⌊v * 255⌋ ≤ 255 := by
    have hle : v * 255 ≤ 255 := by nlinarith
    calc ⌊v * 255⌋ ≤ ⌊(255 : ℝ)⌋ := Int.floor_le_floor hle
      _ = 255 := by norm_num
  rw [min_eq_right hf1]
  constructor
  · omega
  · rw [Int.toNat_of_nonneg hf0]

/-- Every processed channel value is clamped into `[0, 1]`. -/
theorem process_channel_clamped (S : FourierScrambler) (h w : ℕ)
    (ch : ℕ → ℕ → ℝ) (cur : ℕ) (p : (ℕ → ℕ → ℝ) × ℕ)
    (hp : process_channel S h w ch cur = some p) (b a : ℕ) :
    0 ≤ p.1 b a ∧ p.1 b a ≤ 1 := by
  obtain ⟨P, -, -, scr, -, hres⟩ := process_channel_eq_some S h w ch cur
    p hp
  rw [hres]
  unfold clamp01
  constructor
  · exact le_min (le_max_right _ 0) zero_le_one
  · exact min_le_right _ 1

/-- C8: every sample of the image returned by `scramble` lies in
`[0, 255]`: each channel value is clamped to `[0, 1]` after the inverse
transform, and recombination truncates `clamped_value * 255` toward zero
(floor, not rounding), for all inputs and options. -/
theorem claim8_output_range (S : FourierScrambler) (img : Image)
    (cur : ℕ) (out : Image) (cur' : ℕ)
    (hrun : scramble S img cur = some (out, cur')) (x y : ℕ)
    (c : Fin 3) :
    out.width = img.width ∧ out.height = img.height ∧
    out.pix x y c ≤ 255 ∧
    ∃ v : ℝ, 0 ≤ v ∧ v ≤ 1 ∧ (out.pix x y c : ℤ) = ⌊v * 255⌋ := by
  unfold scramble at hrun
  rcases Option.bind_eq_some.mp hrun with ⟨p0, hp0, hrun1⟩
  rcases Option.bind_eq_some.mp hrun1 with ⟨p1, hp1, hrun2⟩
  rcases Option.map_eq_some'.mp hrun2 with ⟨p2, hp2, hres⟩
  have hout : ({ width := img.width, height := img.height,
                 pix := combinePix p0.1 p1.1 p2.1 } : Image) = out :=
    congrArg Prod.fst hres
  refine ⟨(congrArg Image.width hout).symm,
    (congrArg Image.height hout).symm, ?_⟩
  have hval : out.pix x y c = combinePix p0.1 p1.1 p2.1 x y c := by
    rw [← hout]
  rcases c with ⟨cv, hcv⟩
  interval_cases cv
  · rw [combinePix_zero _ _ _ x y _ rfl] at hval
    obtain ⟨h0, h1⟩ := process_channel_clamped S img.height img.width _
      cur p0 hp0 y x
    obtain ⟨hle, hfl⟩ := asU8_of_clamped _ h0 h1
    rw [hval]
    exact ⟨hle, p0.1 y x, h0, h1, hfl⟩
  · rw [combinePix_one _ _ _ x y _ rfl] at hval
    obtain ⟨h0, h1⟩ := process_channel_clamped S img.height img.width _
      p0.2 p1 hp1 y x
    obtain ⟨hle, hfl⟩ := asU8_of_clamped _ h0 h1
    rw [hval]
    exact ⟨hle, p1.1 y x, h0, h1, hfl⟩
  · rw [combinePix_two _ _ _ x y _ rfl] at hval
    obtain ⟨h0, h1⟩ := process_channel_clamped S img.height img.width _
      p1.2 p2 hp2 y x
    obtain ⟨hle, hfl⟩ := asU8_of_clamped _ h0 h1
    rw [hval]
    exact ⟨hle, p2.1 y x, h0, h1, hfl⟩

/-- Witness for C8 on a concrete successful run (full phase scrambling
at intensity 1). -/
theorem claim8_witness :
    ∃ res : Image × ℕ,
      scramble (FourierScrambler.new 1 1
        { phase_scramble := true, intensity := 1,
          padding_mode := PaddingMode.Zero } (fun _ => 0))
        { width := 1, height := 1, pix := fun _ _ _ => 0 } 0 =
          some res ∧
      res.1.pix 0 0 0 ≤ 255 := by
  obtain ⟨res, hres⟩ := scramble_isSome
    (FourierScrambler.new 1 1
      { phase_scramble := true, intensity := 1,
        padding_mode := PaddingMode.Zero } (fun _ => 0))
    { width := 1, height := 1, pix := fun _ _ _ => 0 } 0 (by decide) rfl
  refine ⟨res, hres, ?_⟩
  exact (claim8_output_range _ _ 0 res.1 res.2 hres 0 0 0).2.2.1

/-! ## Claim C9: Exclude mode writes only inside regions -/

/-- A failed region iteration keeps the whole fold failed. -/
theorem regionFold_none (S : FourierScrambler) (img : Image)
    (regions : List FaceRegion) :
    List.foldl (regionPass S img) none regions = none := by
  induction regions with
  | nil => rfl
  | cons r rs ih =>
    rw [List.foldl_cons]
    exact ih

/-- Pixels outside every region keep the canvas value 0 through the
whole region fold. -/
theorem regionFold_blank (S : FourierScrambler) (img : Image)
    (px py : ℕ) (c : Fin 3) :
    ∀ (regions : List FaceRegion) (canvas : Image) (cur : ℕ)
      (out : Image) (cur' : ℕ),
      (∀ r ∈ regions, r.x1 < r.x2 ∧ r.y1 < r.y2) →
      (∀ r ∈ regions,
        ¬(r.x1 ≤ px ∧ px < r.x2 ∧ r.y1 ≤ py ∧ py < r.y2)) →
      List.foldl (regionPass S img) (some (canvas, cur)) regions =
        some (out, cur') →
      canvas.pix px py c = 0 → out.pix px py c = 0 := by
  intro regions
  induction regions with
  | nil =>
    intro canvas cur out cur' _ _ hrun hcanvas
    rw [List.foldl_nil] at hrun
    have heq : canvas = out := congrArg Prod.fst (Option.some.inj hrun)
    rw [← heq]
    exact hcanvas
  | cons r rs ih =>
    intro canvas cur out cur' hwf hout hrun hcanvas
    rw [List.foldl_cons] at hrun
    cases hscr : scramble S (cropRegion img r) cur with
    | none =>
      rw [show regionPass S img (some (canvas, cur)) r = none by
        unfold regionPass
        rw [Option.some_bind, hscr]
        rfl] at hrun
      rw [regionFold_none] at hrun
      cases hrun
    | some p =>
      rw [show regionPass S img (some (canvas, cur)) r =
          some (pasteRegion canvas r p.1, p.2) by
        unfold regionPass
        rw [Option.some_bind, hscr, Option.map_some']] at hrun
      apply ih (pasteRegion canvas r p.1) p.2 out cur'
        (fun r' hr' => hwf r' (List.mem_cons_of_mem _ hr'))
        (fun r' hr' => hout r' (List.mem_cons_of_mem _ hr')) hrun
      unfold pasteRegion
      dsimp only
      rw [if_neg ?_]
      · exact hcanvas
      · have hro := hout r (List.mem_cons_self _ _)
        have hrw := hwf r (List.mem_cons_self _ _)
        intro hin
        exact hro ⟨hin.1, by omega, hin.2.2.1, by omega⟩

/-- C9: in Exclude mode, `scramble_with_face_detection` starts from a
fresh blank canvas of the input's dimensions and writes only inside the
detected regions: every pixel strictly outside all regions equals the
blank default 0 (never a value copied from the source image), and with
zero detected regions the result is the all-blank canvas. -/
theorem claim9_exclude_blank_background (S : FourierScrambler)
    (img : Image) (cur : ℕ) (regions : List FaceRegion) (out : Image)
    (cur' : ℕ)
    (hwf : ∀ r ∈ regions, r.x1 < r.x2 ∧ r.y1 < r.y2)
    (hrun : scramble_with_face_detection S img cur
      BackgroundMode.Exclude regions = some (out, cur'))
    (px py : ℕ) (c : Fin 3)
    (houtside : ∀ r ∈ regions,
      ¬(r.x1 ≤ px ∧ px < r.x2 ∧ r.y1 ≤ py ∧ py < r.y2)) :
    out.pix px py c = 0 ∧
    (regions = [] →
      out = blankImage img.width img.height ∧ cur' = cur) := by
  unfold scramble_with_face_detection at hrun
  constructor
  · exact regionFold_blank S img px py c regions
      (blankImage img.width img.height) cur out cur' hwf houtside hrun
      rfl
  · intro hreg
    subst hreg
    rw [List.foldl_nil] at hrun
    have heq := Option.some.inj hrun
    exact ⟨(congrArg Prod.fst heq).symm, (congrArg Prod.snd heq).symm⟩

/-- Witness for C9 with zero detected regions on a 1 × 1 image. -/
theorem claim9_witness :
    ∃ res : Image × ℕ,
      scramble_with_face_detection (FourierScrambler.new 1 1
        { phase_scramble := true, intensity := 1,
          padding_mode := PaddingMode.Zero } (fun _ => 0))
        { width := 1, height := 1, pix := fun _ _ _ => 0 } 0
        BackgroundMode.Exclude [] = some res ∧
      res.1.pix 5 7 0 = 0 ∧ res.1 = blankImage 1 1 := by
  have hrun : scramble_with_face_detection (FourierScrambler.new 1 1
      { phase_scramble := true, intensity := 1,
        padding_mode := PaddingMode.Zero } (fun _ => 0))
      { width := 1, height := 1, pix := fun _ _ _ => 0 } 0
      BackgroundMode.Exclude [] = some (blankImage 1 1, 0) := rfl
  refine ⟨(blankImage 1 1, 0), hrun, ?_, ?_⟩
  · exact (claim9_exclude_blank_background _ _ 0 [] (blankImage 1 1) 0
      (fun r hr => absurd hr (List.not_mem_nil r)) hrun 5 7 0
      (fun r hr => absurd hr (List.not_mem_nil r))).1
  · exact ((claim9_exclude_blank_background _ _ 0 [] (blankImage 1 1) 0
      (fun r hr => absurd hr (List.not_mem_nil r)) hrun 5 7 0
      (fun r hr => absurd hr (List.not_mem_nil r))).2 rfl).1
